import Mathlib

/-!
# Verification of `xmlschema/codepoints.py`

A shallow embedding of the code-point subset engine of the `xmlschema`
repository: the `UnicodeSubset` ordered interval container, the character
group parser `parse_character_group`, the coalescing iterators
`iter_code_points`, and the category table builder
`build_unicode_categories`.

Python strings are modelled as lists of code points (`List Int`), Python
integers as `Int`, and Python exceptions as `Except` values.  A
`UnicodeSubset` is represented by its `_code_points` list: each entry is
either a bare integer (`Atom.single`) or a `(lo, hi)` tuple
(`Atom.range`), exactly as in the source.
-/

set_option maxRecDepth 8000

/-- `sys.maxunicode` on a full (UCS4) build, as assumed by the module. -/
def maxunicode : Int := 1114111

/-- `UCS4_MAXUNICODE` from the source. -/
def UCS4_MAXUNICODE : Int := 1114111

/-- One element of a `UnicodeSubset._code_points` list: a bare code point
(`int` in Python) or a `(lo, hi)` couple (`tuple` in Python). -/
inductive Atom where
  | single (cp : Int)
  | range (lo hi : Int)
deriving DecidableEq, Repr

/-- The start code point of an atom (`cp` for an int, `cp[0]` for a tuple). -/
def Atom.lo : Atom → Int
  | .single cp => cp
  | .range lo _ => lo

/-- The end code point of an atom (`cp` for an int, `cp[1]` for a tuple). -/
def Atom.hi : Atom → Int
  | .single cp => cp
  | .range _ hi => hi

/-- `CHARACTER_GROUP_ESCAPED`: the code points of the characters of the
string `-|.^?*+{}()[]`, the metacharacters escaped in a character group. -/
def CHARACTER_GROUP_ESCAPED : List Int :=
  [45, 124, 46, 94, 63, 42, 43, 123, 125, 40, 41, 91, 93]

/-- The rendering of one endpoint character: a metacharacter of
`CHARACTER_GROUP_ESCAPED` is preceded by a backslash (92), anything
else is emitted as itself (`'\%s' % unicode_chr(cp)` vs
`unicode_chr(cp)` in the source). -/
def escChar (c : Int) : List Int :=
  if c ∈ CHARACTER_GROUP_ESCAPED then [92, c] else [c]

/-- `code_point_repr`: the rendered text form of one atom, as a list of
code points.  A range wider than two code points uses the hyphen form,
a two-wide range concatenates the two endpoint characters. -/
def code_point_repr : Atom → List Int
  | .single cp => escChar cp
  | .range lo hi =>
      if hi > lo + 1 then escChar lo ++ [45] ++ escChar hi
      else escChar lo ++ escChar hi

namespace UnicodeSubset

/-- `UnicodeSubset.__unicode__`: concatenation of the atom representations. -/
def strRepr (l : List Atom) : List Int :=
  (l.map code_point_repr).flatten

/-- `UnicodeSubset.__contains__` restricted to int arguments: linear scan
over the atom list with early exit once atoms start past the point. -/
def containsCp (l : List Atom) (code_point : Int) : Bool :=
  match l with
  | [] => false
  | .range lo hi :: rest =>
      if lo > code_point then false
      else if hi < code_point then containsCp rest code_point
      else true
  | .single cp :: rest =>
      if cp > code_point then false
      else if cp = code_point then true
      else containsCp rest code_point

/-- The loop body of `UnicodeSubset.add` after argument validation.
`v` is the validated value; the list is scanned left to right, and the
first applicable position either merges (updating in place, clamped to
`higher_limit - 1`), inserts, or leaves the list unchanged; if no
position applies the value is appended. -/
def addAux (v : Atom) : List Atom → List Atom
  | [] => [v]
  | cp :: rest =>
      let start_cp := cp.lo
      let end_cp := cp.hi
      let start_value := v.lo
      let end_value := v.hi
      let higher_limit : Int :=
        match rest with
        | [] => maxunicode + 1
        | c :: _ => c.lo
      if start_value < start_cp then
        if start_value = start_cp - 1 ∨ end_value ≥ start_cp - 1 then
          Atom.range start_value (max (min end_value (higher_limit - 1)) end_cp) :: rest
        else
          v :: cp :: rest
      else if start_value > end_cp + 1 then
        cp :: addAux v rest
      else if end_cp > start_cp then
        Atom.range start_cp (max (min end_value (higher_limit - 1)) end_cp) :: rest
      else if end_value > start_cp then
        Atom.range start_cp (min end_value (higher_limit - 1)) :: rest
      else
        cp :: rest

/-- `UnicodeSubset.add`: validates the argument (raising `ValueError` for
a code point outside `[0, maxunicode]` or a couple with
`lo > hi` or endpoints out of range) and then runs the insertion loop. -/
def add (l : List Atom) (v : Atom) : Except String (List Atom) :=
  match v with
  | .single cp =>
      if ¬ (0 ≤ cp ∧ cp ≤ maxunicode) then
        .error "not a Unicode code point"
      else .ok (addAux v l)
  | .range lo hi =>
      if ¬ (0 ≤ lo ∧ lo ≤ hi ∧ hi ≤ maxunicode) then
        .error "not a Unicode code point range"
      else .ok (addAux v l)

/-- The loop body of `UnicodeSubset.discard` after validation, expressed
on the reversed atom list: the Python loop walks positions from the end
of the list towards the front, so the head here is the rightmost
unprocessed atom.  The result is the processed list, still reversed. -/
def discardRev (start_value end_value : Int) : List Atom → List Atom
  | [] => []
  | cp :: rest =>
      let start_cp := cp.lo
      let end_cp := cp.hi
      if start_value > end_cp then
        cp :: rest
      else if end_value ≥ end_cp then
        if start_value ≤ start_cp then
          discardRev start_value end_value rest
        else if start_value - start_cp > 1 then
          Atom.range start_cp (start_value - 1) :: discardRev start_value end_value rest
        else
          Atom.single start_cp :: discardRev start_value end_value rest
      else if end_value ≥ start_cp then
        if start_value ≤ start_cp then
          (if end_cp - end_value > 1 then Atom.range (end_value + 1) end_cp
           else Atom.single end_cp) :: discardRev start_value end_value rest
        else
          (if end_cp - end_value > 1 then Atom.range (end_value + 1) end_cp
           else Atom.single end_cp) ::
            (if start_value - start_cp > 1 then Atom.range start_cp (start_value - 1)
             else Atom.single start_cp) :: discardRev start_value end_value rest
      else
        cp :: discardRev start_value end_value rest

/-- The mutation of `UnicodeSubset.discard` on the atom list (validated
arguments). -/
def discardAux (l : List Atom) (v : Atom) : List Atom :=
  (discardRev v.lo v.hi l.reverse).reverse

/-- `UnicodeSubset.discard`: validates the argument exactly as `add` and
then runs the backwards removal loop. -/
def discard (l : List Atom) (v : Atom) : Except String (List Atom) :=
  match v with
  | .single cp =>
      if ¬ (0 ≤ cp ∧ cp ≤ maxunicode) then
        .error "not a Unicode code point"
      else .ok (discardAux l v)
  | .range lo hi =>
      if ¬ (0 ≤ lo ∧ lo ≤ hi ∧ hi ≤ maxunicode) then
        .error "not a Unicode code point range"
      else .ok (discardAux l v)

/-- The code emitted after the `complement` loop finishes (and also the
only thing emitted when the loop breaks out with `last > maxunicode`):
the open end up to `maxunicode`. -/
def tailPiece (last : Int) : List Atom :=
  if last = maxunicode then [Atom.single maxunicode]
  else if last < maxunicode then [Atom.range last maxunicode]
  else []

/-- `UnicodeSubset.complement` as a function of the running `last`
cursor.  Walks the atom list computing `diff = start_cp - last`, emits a
gap atom (or two) according to `diff`, raises `ValueError` when
`diff` is negative, and breaks out of the walk once `last` passes
`maxunicode`. -/
def complementAux (last : Int) : List Atom → Except String (List Atom)
  | [] => .ok (tailPiece last)
  | cp :: rest =>
      if last > maxunicode then .ok (tailPiece last)
      else
        let start_cp := cp.lo
        let end_cp := cp.hi
        let diff := start_cp - last
        if diff > 2 then
          (fun t => Atom.range last (start_cp - 1) :: t) <$> complementAux (end_cp + 1) rest
        else if diff = 2 then
          (fun t => Atom.single last :: Atom.single (last + 1) :: t) <$>
            complementAux (end_cp + 1) rest
        else if diff = 1 then
          (fun t => Atom.single last :: t) <$> complementAux (end_cp + 1) rest
        else if diff ≠ 0 then
          .error "code points unordered"
        else
          complementAux (end_cp + 1) rest

/-- `UnicodeSubset.complement()`, fully consumed into a list. -/
def complement (l : List Atom) : Except String (List Atom) :=
  complementAux 0 l

end UnicodeSubset

/-- The sort key used by `iter_code_points` in forward mode:
`x if isinstance(x, int) else x[0]`. -/
def fwdKey : Atom → Int := Atom.lo

/-- The sort key used by `iter_code_points` in reverse mode:
`x if isinstance(x, int) else x[1]`. -/
def revKey : Atom → Int := Atom.hi

/-- `sorted(items, key=...)`: a stable ascending sort by the forward key
(insertion sort is stable, like Python's sort). -/
def sortAsc (items : List Atom) : List Atom :=
  List.insertionSort (fun a b => fwdKey a ≤ fwdKey b) items

/-- `sorted(items, reverse=True, key=...)`: a stable descending sort by
the reverse key. -/
def sortDesc (items : List Atom) : List Atom :=
  List.insertionSort (fun a b => revKey b ≤ revKey a) items

/-- How `iter_code_points` yields an accumulated run: a couple when the
run is wider than one code point, a bare int otherwise. -/
def flushAtom (prev_start_cp prev_end_cp : Int) : Atom :=
  if prev_end_cp > prev_start_cp then Atom.range prev_start_cp prev_end_cp
  else Atom.single prev_start_cp

/-- The forward-mode loop of `iter_code_points`: the state is the pending
run `(prev_start_cp, prev_end_cp)` (`none` before the first item, matching
the `TypeError` bootstrap in the source). -/
def fwdGo : Option (Int × Int) → List Atom → List Atom
  | none, [] => []
  | some (prev_start_cp, prev_end_cp), [] => [flushAtom prev_start_cp prev_end_cp]
  | none, a :: t => fwdGo (some (a.lo, a.hi)) t
  | some (prev_start_cp, prev_end_cp), a :: t =>
      if prev_end_cp + 1 ≥ a.lo then
        fwdGo (some (prev_start_cp, max prev_end_cp a.hi)) t
      else
        flushAtom prev_start_cp prev_end_cp :: fwdGo (some (a.lo, a.hi)) t

/-- The reverse-mode loop of `iter_code_points`: items arrive in
descending end order; a merge only lowers `prev_start_cp`. -/
def revGo : Option (Int × Int) → List Atom → List Atom
  | none, [] => []
  | some (prev_start_cp, prev_end_cp), [] => [flushAtom prev_start_cp prev_end_cp]
  | none, a :: t => revGo (some (a.lo, a.hi)) t
  | some (prev_start_cp, prev_end_cp), a :: t =>
      if prev_start_cp - 1 ≤ a.hi then
        revGo (some (min prev_start_cp a.lo, prev_end_cp)) t
      else
        flushAtom prev_start_cp prev_end_cp :: revGo (some (a.lo, a.hi)) t

/-- `iter_code_points(items, reverse)`, fully consumed into a list. -/
def iter_code_points (items : List Atom) (reverse : Bool) : List Atom :=
  if reverse then revGo none (sortDesc items)
  else fwdGo none (sortAsc items)

namespace UnicodeSubset

/-- `UnicodeSubset.update` on an iterable of code points/ranges: routes
the items through `iter_code_points(..., reverse=True)` and adds each. -/
def updateList (l : List Atom) (values : List Atom) : Except String (List Atom) :=
  (iter_code_points values true).foldlM add l

/-- `UnicodeSubset(values)` for a non-string iterable argument: start
from an empty code point list and `update`. -/
def ofList (values : List Atom) : Except String (List Atom) :=
  updateList [] values

/-- `UnicodeSubset.__isub__` (and hence `__sub__` on a fresh copy) with an
iterable right operand: discard every coalesced item. -/
def isub (l : List Atom) (other : List Atom) : Except String (List Atom) :=
  (iter_code_points other true).foldlM (fun acc cp => discard acc cp) l

/-- `UnicodeSubset.__sub__`: copy, then in-place subtraction. -/
def sub (l : List Atom) (other : List Atom) : Except String (List Atom) :=
  isub l other

/-- `UnicodeSubset.__rsub__`, which the source defines by the alias
`__rsub__ = __sub__`. -/
def rsub : List Atom → List Atom → Except String (List Atom) := sub

end UnicodeSubset

/-! ## The character group parser -/

/-- The structured content of an `XMLSchemaRegexError` raised by
`parse_character_group`: the offending character (or range endpoints)
and the position reported in the message. -/
inductive XMLSchemaRegexError where
  | badChar (c : Int) (pos : Nat)
  | badRange (startChar endChar : Int) (pos : Nat)
deriving DecidableEq, Repr

/-- The code points of the characters of `|.^?*+{}()`: always-literal
metacharacters inside a class body. -/
def CLASS_METACHARS : List Int :=
  [124, 46, 94, 63, 42, 43, 123, 125, 40, 41]

/-- `range(ord(char) + 1, ord(end_char) + 1)` yielded as singletons in
expand mode. -/
def expandRange (a b : Int) : List Atom :=
  (List.range (b + 1 - a).toNat).map (fun k => Atom.single (a + (k : Int)))

/-- The scanning loop of `parse_character_group` from position 1 onwards.
`s` is the not-yet-consumed suffix of the body, `i` its starting
position, `escaped` the state flag, and `ch` the Python `char` variable
(the last literal character seen, used as range start).  A trailing
unresolved escape yields a literal backslash. -/
def pcgLoop (expand_ranges : Bool) :
    List Int → Nat → Bool → Int → Except XMLSchemaRegexError (List Atom)
  | [], _, escaped, _ => .ok (if escaped then [Atom.single 92] else [])
  | c :: rest, i, escaped, ch =>
      if c = 45 then
        if escaped then
          (fun t => Atom.single 45 :: t) <$> pcgLoop expand_ranges rest (i + 1) false 45
        else
          match rest with
          | [] =>
              -- a hyphen at the final position is literal
              (fun t => Atom.single 45 :: t) <$> pcgLoop expand_ranges [] (i + 1) false 45
          | end_char :: rest2 =>
              match rest2 with
              | m :: rest3 =>
                  if end_char = 92 ∧ m ∈ CHARACTER_GROUP_ESCAPED then
                    -- the end of the range is an escaped metacharacter
                    if ch > m then .error (.badRange ch m i)
                    else if expand_ranges then
                      (fun t => expandRange (ch + 1) m ++ t) <$>
                        pcgLoop expand_ranges rest3 (i + 3) escaped ch
                    else
                      (fun t => Atom.range ch m :: t) <$>
                        pcgLoop expand_ranges rest3 (i + 3) escaped ch
                  else
                    if ch > end_char then .error (.badRange ch end_char (i - 1))
                    else if expand_ranges then
                      (fun t => expandRange (ch + 1) end_char ++ t) <$>
                        pcgLoop expand_ranges (m :: rest3) (i + 2) escaped ch
                    else
                      (fun t => Atom.range ch end_char :: t) <$>
                        pcgLoop expand_ranges (m :: rest3) (i + 2) escaped ch
              | [] =>
                  if ch > end_char then .error (.badRange ch end_char (i - 1))
                  else if expand_ranges then
                    (fun t => expandRange (ch + 1) end_char ++ t) <$>
                      pcgLoop expand_ranges [] (i + 2) escaped ch
                  else
                    (fun t => Atom.range ch end_char :: t) <$>
                      pcgLoop expand_ranges [] (i + 2) escaped ch
      else if c ∈ CLASS_METACHARS then
        (fun t => Atom.single c :: t) <$> pcgLoop expand_ranges rest (i + 1) false c
      else if c = 91 ∨ c = 93 then
        -- at positions past 0 the body length is always > 1
        if ¬ escaped then .error (.badChar c i)
        else (fun t => Atom.single c :: t) <$> pcgLoop expand_ranges rest (i + 1) false c
      else if c = 92 then
        if escaped then
          (fun t => Atom.single 92 :: t) <$> pcgLoop expand_ranges rest (i + 1) false 92
        else pcgLoop expand_ranges rest (i + 1) true ch
      else
        if escaped then
          (fun t => Atom.single 92 :: Atom.single c :: t) <$>
            pcgLoop expand_ranges rest (i + 1) false c
        else
          (fun t => Atom.single c :: t) <$> pcgLoop expand_ranges rest (i + 1) false c

/-- `parse_character_group(s, expand_ranges)`: the special handling of
position 0 followed by the scanning loop.  The body is a list of code
points; tokens are `Atom`s. -/
def parse_character_group (s : List Int) (expand_ranges : Bool) :
    Except XMLSchemaRegexError (List Atom) :=
  match s with
  | [] => .ok []
  | c0 :: rest =>
      if c0 = 92 then
        pcgLoop expand_ranges rest 1 true 92
      else if (c0 = 91 ∨ c0 = 93) ∧ rest ≠ [] then
        .error (.badChar c0 0)
      else if expand_ranges then
        (fun t => Atom.single c0 :: t) <$> pcgLoop expand_ranges rest 1 false c0
      else
        match rest with
        | y :: z :: t =>
            if y = 45 then
              -- a range starts right after position 0: defer the emission
              pcgLoop expand_ranges (y :: z :: t) 1 false c0
            else
              (fun u => Atom.single c0 :: u) <$> pcgLoop expand_ranges (y :: z :: t) 1 false c0
        | _ =>
            (fun u => Atom.single c0 :: u) <$> pcgLoop expand_ranges rest 1 false c0

/-! ## Invariants of the data model -/

/-- A structurally valid atom: endpoints in `[0, maxunicode]`, ordered. -/
def atomOK (a : Atom) : Prop :=
  0 ≤ a.lo ∧ a.lo ≤ a.hi ∧ a.hi ≤ maxunicode

instance : DecidablePred atomOK := fun a =>
  inferInstanceAs (Decidable (0 ≤ a.lo ∧ a.lo ≤ a.hi ∧ a.hi ≤ maxunicode))

/-- The spec ordering invariant between two consecutive atoms: strictly
ascending with at least one absent code point between them. -/
def sepOK (a b : Atom) : Prop := a.hi + 1 < b.lo

instance : ∀ a b, Decidable (sepOK a b) := fun a b =>
  inferInstanceAs (Decidable (a.hi + 1 < b.lo))

/-- The spec invariant on an atom list: consecutive atoms strictly
ascending and non-adjacent. -/
def ordered (l : List Atom) : Prop := l.Chain' sepOK

/-- Executable check of `ordered`. -/
def orderedB : List Atom → Bool
  | [] => true
  | [_] => true
  | a :: b :: t => decide (sepOK a b) && orderedB (b :: t)

theorem orderedB_iff : ∀ l, orderedB l = true ↔ ordered l
  | [] => by simp [orderedB, ordered]
  | [a] => by simp [orderedB, ordered]
  | a :: b :: t => by
      rw [ordered, List.chain'_cons, show List.Chain' sepOK (b :: t) = ordered (b :: t) from rfl,
        ← orderedB_iff (b :: t)]
      simp [orderedB]

instance : DecidablePred ordered := fun l =>
  decidable_of_iff (orderedB l = true) (orderedB_iff l)

/-- The full invariant: valid atoms, ordered and separated. -/
def invariant (l : List Atom) : Prop :=
  (∀ a ∈ l, atomOK a) ∧ ordered l

instance : DecidablePred invariant := fun l =>
  inferInstanceAs (Decidable ((∀ a ∈ l, atomOK a) ∧ ordered l))

/-- A range atom that actually needs the tuple shape: `lo < hi`.
(Singleton atoms are always well shaped.) -/
def strictShape : Atom → Prop
  | .single _ => True
  | .range lo hi => lo < hi

instance : DecidablePred strictShape := fun a =>
  match a with
  | .single _ => isTrue trivial
  | .range lo hi => inferInstanceAs (Decidable (lo < hi))

/-- A range atom at least three code points wide, or a singleton: the
shapes that `complement` can emit for an occupied run. -/
def wideShape : Atom → Prop
  | .single _ => True
  | .range lo hi => lo + 2 ≤ hi

instance : DecidablePred wideShape := fun a =>
  match a with
  | .single _ => isTrue trivial
  | .range lo hi => inferInstanceAs (Decidable (lo + 2 ≤ hi))

/-- The code points covered by an atom list. -/
def covered (l : List Atom) (n : Int) : Prop :=
  ∃ a ∈ l, a.lo ≤ n ∧ n ≤ a.hi

instance : ∀ (ε α : Type) [DecidableEq ε] [DecidableEq α], DecidableEq (Except ε α) :=
  fun _ _ _ _ x y =>
    match x, y with
    | .ok a, .ok b =>
        if h : a = b then isTrue (by rw [h]) else isFalse (by simp [h])
    | .error a, .error b =>
        if h : a = b then isTrue (by rw [h]) else isFalse (by simp [h])
    | .ok _, .error _ => isFalse (by simp)
    | .error _, .ok _ => isFalse (by simp)
/-! ## Claim theorems: C1, C5, C8, C10 -/

/-- **C1.** The claim states that after any sequence of valid `add`/`discard`
calls the atom list always satisfies the separation invariant
(`hiA + 1 < loB` for consecutive atoms).  The code violates this: starting
from an empty subset, `add((0, 5))`, `add((10, 20))`, `add((0, 100))` leaves
the list `[(0, 9), (10, 20)]`, whose consecutive atoms are adjacent
(`9 + 1 = 10`), and the code points `21..100` of the last added range are
silently dropped (witnessed by membership of 50 failing), contradicting the
documented set semantics of `add`. -/
theorem add_sequence_breaks_separation :
    (UnicodeSubset.add [] (Atom.range 0 5) >>= fun l1 =>
     UnicodeSubset.add l1 (Atom.range 10 20) >>= fun l2 =>
     UnicodeSubset.add l2 (Atom.range 0 100))
      = Except.ok [Atom.range 0 9, Atom.range 10 20]
    ∧ ¬ ordered [Atom.range 0 9, Atom.range 10 20]
    ∧ UnicodeSubset.containsCp [Atom.range 0 9, Atom.range 10 20] 50 = false
    ∧ atomOK (Atom.range 0 5) ∧ atomOK (Atom.range 10 20) ∧ atomOK (Atom.range 0 100) :=
  ⟨by decide, by decide, by decide, by decide, by decide, by decide⟩

/-- **C5.** `parse_character_group` in non-expand mode on the six spec
scenarios (bodies given as code point sequences): `"a-z"` yields the range
`(97, 122)`; `"-az"` yields `45, 97, 122`; `"a\-z"` yields `97, 45, 122`;
`"["` alone yields `91`; `"a[b"` fails with a grammar error at the position
of the unescaped bracket (position 1); `"z-a"` fails with a grammar error
for the reversed range. -/
theorem parse_character_group_scenarios :
    parse_character_group [97, 45, 122] false = .ok [Atom.range 97 122]
    ∧ parse_character_group [45, 97, 122] false =
        .ok [Atom.single 45, Atom.single 97, Atom.single 122]
    ∧ parse_character_group [97, 92, 45, 122] false =
        .ok [Atom.single 97, Atom.single 45, Atom.single 122]
    ∧ parse_character_group [91] false = .ok [Atom.single 91]
    ∧ parse_character_group [97, 91, 98] false = .error (.badChar 91 1)
    ∧ parse_character_group [122, 45, 97] false = .error (.badRange 122 97 0) :=
  ⟨by decide, by decide, by decide, by decide, by decide, by decide⟩

/-- The `ValueError` message raised by `add`/`discard` for an invalid
argument: it depends only on the argument's shape, not on the subset. -/
def valueErrorMsg : Atom → String
  | .single _ => "not a Unicode code point"
  | .range _ _ => "not a Unicode code point range"

/-- **C8.** `add` and `discard` raise `ValueError` exactly on invalid
arguments (a code point outside `[0, maxunicode]`, or a pair violating
`0 ≤ lo ≤ hi ≤ maxunicode`), the error is computed before and
independently of the atom list (so the list is unchanged when they
raise), and a valid argument never raises. -/
theorem add_discard_validation : ∀ (l : List Atom) (v : Atom),
    (¬ atomOK v →
      UnicodeSubset.add l v = .error (valueErrorMsg v) ∧
      UnicodeSubset.discard l v = .error (valueErrorMsg v)) ∧
    (atomOK v →
      UnicodeSubset.add l v = .ok (UnicodeSubset.addAux v l) ∧
      UnicodeSubset.discard l v = .ok (UnicodeSubset.discardAux l v)) := by
  intro l v
  cases v with
  | single cp =>
      constructor
      · intro h
        have hc : ¬ (0 ≤ cp ∧ cp ≤ maxunicode) := by
          simpa [atomOK, Atom.lo, Atom.hi] using h
        simp [UnicodeSubset.add, UnicodeSubset.discard, hc, valueErrorMsg]
      · intro h
        have hc : 0 ≤ cp ∧ cp ≤ maxunicode := by
          simpa [atomOK, Atom.lo, Atom.hi] using h
        simp [UnicodeSubset.add, UnicodeSubset.discard, hc]
  | range lo hi =>
      constructor
      · intro h
        have hc : ¬ (0 ≤ lo ∧ lo ≤ hi ∧ hi ≤ maxunicode) := by
          simpa [atomOK, Atom.lo, Atom.hi] using h
        simp [UnicodeSubset.add, UnicodeSubset.discard, hc, valueErrorMsg]
      · intro h
        have hc : 0 ≤ lo ∧ lo ≤ hi ∧ hi ≤ maxunicode := by
          simpa [atomOK, Atom.lo, Atom.hi] using h
        simp [UnicodeSubset.add, UnicodeSubset.discard, hc]

/-- Witness for C8: a negative code point is rejected by `add` and
`discard` on a concrete subset, with the untouched-list error. -/
theorem add_discard_validation_witness :
    UnicodeSubset.add [Atom.single 3] (Atom.single (-1)) =
      .error "not a Unicode code point" ∧
    UnicodeSubset.discard [Atom.single 3] (Atom.single (-1)) =
      .error "not a Unicode code point" :=
  (add_discard_validation [Atom.single 3] (Atom.single (-1))).1 (by decide)

/-- **C10.** `__rsub__` is the very same function as `__sub__`, so for a
non-subset iterable `X`, `X - S` dispatches to `S.__rsub__(X)` and
computes a copy of `S` with the points of `X` discarded (the value of
`S - X`), not the points of `X` with `S` removed: on `S = {5}` and
`X = {0..10}`, the reflected difference is empty while removing `S` from
`X` would give `{0..4, 6..10}`. -/
theorem rsub_reflected_subtraction :
    (∀ (S X : List Atom), UnicodeSubset.rsub S X = UnicodeSubset.sub S X) ∧
    UnicodeSubset.rsub [Atom.single 5] [Atom.range 0 10] = .ok [] ∧
    UnicodeSubset.sub [Atom.range 0 10] [Atom.single 5] =
      .ok [Atom.range 0 4, Atom.range 6 10] ∧
    UnicodeSubset.rsub [Atom.single 5] [Atom.range 0 10] ≠
      UnicodeSubset.sub [Atom.range 0 10] [Atom.single 5] :=
  ⟨fun _ _ => rfl, by decide, by decide, by decide⟩

/-! ## C2: add merges with clamping or inserts at the sorted position -/

/-- The `higher_limit` of the `add` loop: the lower bound of the next
atom, or `maxunicode + 1` past the end of the list. -/
def nextLo : List Atom → Int
  | [] => maxunicode + 1
  | c :: _ => c.lo

/-- Unfolding of the `add` loop body on a non-empty list, with the
`higher_limit` lookup expressed through `nextLo`. -/
theorem addAux_cons (v cp : Atom) (rest : List Atom) :
    UnicodeSubset.addAux v (cp :: rest) =
      (if v.lo < cp.lo then
        if v.lo = cp.lo - 1 ∨ v.hi ≥ cp.lo - 1 then
          Atom.range v.lo (max (min v.hi (nextLo rest - 1)) cp.hi) :: rest
        else v :: cp :: rest
      else if v.lo > cp.hi + 1 then cp :: UnicodeSubset.addAux v rest
      else if cp.hi > cp.lo then
        Atom.range cp.lo (max (min v.hi (nextLo rest - 1)) cp.hi) :: rest
      else if v.hi > cp.lo then
        Atom.range cp.lo (min v.hi (nextLo rest - 1)) :: rest
      else cp :: rest) := by
  cases rest <;> rfl

theorem invariant_cons {a : Atom} {l : List Atom} (h : invariant (a :: l)) : invariant l :=
  ⟨fun b hb => h.1 b (List.mem_cons_of_mem a hb), h.2.tail⟩

/-- In an invariant list every later atom starts strictly after the head
atom ends, with a separating gap. -/
theorem invariant_head_sep {cp : Atom} {rest : List Atom} (h : invariant (cp :: rest)) :
    ∀ b ∈ rest, cp.hi + 1 < b.lo := by
  induction rest with
  | nil => intro b hb; cases hb
  | cons c t ih =>
      intro b hb
      have hsep : sepOK cp c := (List.chain'_cons.mp h.2).1
      rcases List.mem_cons.mp hb with rfl | hbt
      · exact hsep
      · have hc : invariant (c :: t) := invariant_cons h
        have h2 : invariant (cp :: t) := by
          refine ⟨fun a ha => ?_, ?_⟩
          · rcases List.mem_cons.mp ha with rfl | hat
            · exact h.1 a (List.mem_cons_self _ _)
            · exact hc.1 a (List.mem_cons_of_mem _ hat)
          · rcases t with _ | ⟨d, t2⟩
            · exact List.chain'_singleton cp
            · refine List.chain'_cons.mpr ⟨?_, (List.chain'_cons.mp hc.2).2⟩
              have hcd : sepOK c d := (List.chain'_cons.mp hc.2).1
              have hok : atomOK c := hc.1 c (List.mem_cons_self _ _)
              have h5 : cp.hi + 1 < c.lo := hsep
              have h6 : c.lo ≤ c.hi := hok.2.1
              unfold sepOK at hcd ⊢
              omega
        exact ih h2 b hbt

/-- In an invariant list the head atom ends strictly below `nextLo` of
the tail (below `maxunicode + 1` when the tail is empty). -/
theorem invariant_head_lt_nextLo {cp : Atom} {rest : List Atom} (h : invariant (cp :: rest)) :
    cp.hi + 1 ≤ nextLo rest := by
  cases rest with
  | nil =>
      have := (h.1 cp (List.mem_cons_self _ _)).2.2
      simp only [nextLo]
      omega
  | cons c t =>
      have : sepOK cp c := (List.chain'_cons.mp h.2).1
      unfold sepOK at this
      simp only [nextLo]
      omega

/-- **C2.** On an invariant subset and a valid value, the `add` loop
either merges the value into the atom at some position `p`, replacing it
in place with a single atom whose upper end is clamped strictly below
the lower bound of the following atom (`maxunicode + 1` if there is
none) and leaving every other atom — in particular every atom after the
merge position — untouched, or inserts the value itself at some
position; and whenever the value is disjoint from and non-adjacent to
every atom, it is inserted at exactly the position that keeps the list
sorted and separated. -/
theorem add_merges_clamped_or_inserts_sorted : ∀ (l : List Atom) (v : Atom),
    invariant l → atomOK v →
    ((∃ p a, UnicodeSubset.addAux v l = l.take p ++ a :: l.drop (p + 1) ∧
        p < l.length ∧ a.hi < nextLo (l.drop (p + 1)))
     ∨ (∃ p, UnicodeSubset.addAux v l = l.take p ++ v :: l.drop p))
    ∧ ((∀ b ∈ l, v.hi + 1 < b.lo ∨ b.hi + 1 < v.lo) →
        ∃ p, UnicodeSubset.addAux v l = l.take p ++ v :: l.drop p ∧
          (∀ b ∈ l.take p, b.hi + 1 < v.lo) ∧ (∀ b ∈ l.drop p, v.hi + 1 < b.lo)) := by
  intro l
  induction l with
  | nil =>
      intro v _ _
      constructor
      · right; exact ⟨0, rfl⟩
      · intro _; exact ⟨0, rfl, by simp, by simp [UnicodeSubset.addAux]⟩
  | cons cp rest ih =>
      intro v hInv hv
      have hcp : atomOK cp := hInv.1 cp (List.mem_cons_self _ _)
      have hH : cp.hi + 1 ≤ nextLo rest := invariant_head_lt_nextLo hInv
      have hrest : invariant rest := invariant_cons hInv
      have hsep := invariant_head_sep hInv
      rw [addAux_cons]
      rcases hcp with ⟨hcp1, hcp2, hcp3⟩
      rcases hv with ⟨hv1, hv2, hv3⟩
      split_ifs with h1 h2 h3 h4 h5
      · -- merge at the head after extending to the left
        constructor
        · left
          refine ⟨0, _, rfl, by simp, ?_⟩
          show max (min v.hi (nextLo rest - 1)) cp.hi < nextLo rest
          omega
        · intro hdisj
          rcases hdisj cp (List.mem_cons_self _ _) with hc | hc <;> omega
      · -- insertion at the head
        constructor
        · right; exact ⟨0, rfl⟩
        · intro _
          refine ⟨0, rfl, by simp, ?_⟩
          intro b hb
          rcases List.mem_cons.mp hb with rfl | hbt
          · omega
          · have := hsep b hbt
            omega
      · -- the value lies past this atom: the loop continues
        rcases ih v hrest ⟨hv1, hv2, hv3⟩ with ⟨ih1, ih2⟩
        constructor
        · rcases ih1 with ⟨p, a, heq, hp, hcl⟩ | ⟨p, heq⟩
          · left
            refine ⟨p + 1, a, ?_, ?_, ?_⟩
            · simp [heq]
            · simp only [List.length_cons]
              omega
            · simpa using hcl
          · right
            exact ⟨p + 1, by simp [heq]⟩
        · intro hdisj
          have hcpd : cp.hi + 1 < v.lo := by
            rcases hdisj cp (List.mem_cons_self _ _) with hc | hc <;> omega
          rcases ih2 (fun b hb => hdisj b (List.mem_cons_of_mem _ hb)) with ⟨p, heq, hta, hdr⟩
          refine ⟨p + 1, by simp [heq], ?_, by simpa using hdr⟩
          intro b hb
          rcases List.mem_cons.mp (by simpa using hb) with rfl | hbt
          · exact hcpd
          · exact hta b hbt
      · -- merge at the head of a range atom
        constructor
        · left
          refine ⟨0, _, rfl, by simp, ?_⟩
          show max (min v.hi (nextLo rest - 1)) cp.hi < nextLo rest
          omega
        · intro hdisj
          rcases hdisj cp (List.mem_cons_self _ _) with hc | hc <;> omega
      · -- merge extending a singleton atom to the right
        constructor
        · left
          refine ⟨0, _, rfl, by simp, ?_⟩
          show min v.hi (nextLo rest - 1) < nextLo rest
          omega
        · intro hdisj
          rcases hdisj cp (List.mem_cons_self _ _) with hc | hc <;> omega
      · -- the value is already contained in this singleton atom
        constructor
        · left
          refine ⟨0, cp, rfl, by simp, ?_⟩
          show cp.hi < nextLo rest
          omega
        · intro hdisj
          rcases hdisj cp (List.mem_cons_self _ _) with hc | hc <;> omega

/-- Witness for C2: adding the disjoint singleton `7` to
`{0..5, 10..20}` falls in one of the two allowed modes (here: an
insertion between the two atoms). -/
theorem add_merges_clamped_or_inserts_sorted_witness :
    ((∃ p a, UnicodeSubset.addAux (Atom.single 7) [Atom.range 0 5, Atom.range 10 20] =
        [Atom.range 0 5, Atom.range 10 20].take p ++
          a :: [Atom.range 0 5, Atom.range 10 20].drop (p + 1) ∧
        p < [Atom.range 0 5, Atom.range 10 20].length ∧
        a.hi < nextLo ([Atom.range 0 5, Atom.range 10 20].drop (p + 1)))
     ∨ (∃ p, UnicodeSubset.addAux (Atom.single 7) [Atom.range 0 5, Atom.range 10 20] =
        [Atom.range 0 5, Atom.range 10 20].take p ++
          Atom.single 7 :: [Atom.range 0 5, Atom.range 10 20].drop p)) :=
  (add_merges_clamped_or_inserts_sorted [Atom.range 0 5, Atom.range 10 20]
    (Atom.single 7) (by decide) (by decide)).1

/-! ## C9: forward iter_code_points computes the canonical decomposition -/

instance : IsTotal Atom (fun a b => fwdKey a ≤ fwdKey b) :=
  ⟨fun x y => le_total (fwdKey x) (fwdKey y)⟩

instance : IsTrans Atom (fun a b => fwdKey a ≤ fwdKey b) :=
  ⟨fun _ _ _ h1 h2 => le_trans h1 h2⟩

instance : IsTotal Atom (fun a b => revKey b ≤ revKey a) :=
  ⟨fun x y => le_total (revKey y) (revKey x)⟩

instance : IsTrans Atom (fun a b => revKey b ≤ revKey a) :=
  ⟨fun _ _ _ h1 h2 => le_trans h2 h1⟩

theorem sortAsc_perm (items : List Atom) : (sortAsc items).Perm items :=
  List.perm_insertionSort _ items

theorem sortAsc_sorted (items : List Atom) :
    List.Sorted (fun a b => fwdKey a ≤ fwdKey b) (sortAsc items) :=
  List.sorted_insertionSort _ items

theorem sortDesc_perm (items : List Atom) : (sortDesc items).Perm items :=
  List.perm_insertionSort _ items

theorem sortDesc_sorted (items : List Atom) :
    List.Sorted (fun a b => revKey b ≤ revKey a) (sortDesc items) :=
  List.sorted_insertionSort _ items

theorem covered_nil (n : Int) : ¬ covered [] n := by simp [covered]

theorem covered_cons {a : Atom} {l : List Atom} {n : Int} :
    covered (a :: l) n ↔ (a.lo ≤ n ∧ n ≤ a.hi) ∨ covered l n := by
  unfold covered
  constructor
  · rintro ⟨b, hb, h2⟩
    rcases List.mem_cons.mp hb with rfl | hbt
    · exact Or.inl h2
    · exact Or.inr ⟨b, hbt, h2⟩
  · rintro (h | ⟨b, hb, h2⟩)
    · exact ⟨a, List.mem_cons_self _ _, h⟩
    · exact ⟨b, List.mem_cons_of_mem _ hb, h2⟩

theorem covered_perm {l1 l2 : List Atom} (h : l1.Perm l2) (n : Int) :
    covered l1 n ↔ covered l2 n := by
  unfold covered
  constructor
  · rintro ⟨a, ha, h2⟩
    exact ⟨a, h.mem_iff.mp ha, h2⟩
  · rintro ⟨a, ha, h2⟩
    exact ⟨a, h.mem_iff.mpr ha, h2⟩

theorem flushAtom_lo (ps pe : Int) : (flushAtom ps pe).lo = ps := by
  unfold flushAtom
  split_ifs <;> rfl

theorem flushAtom_hi {ps pe : Int} (h : ps ≤ pe) : (flushAtom ps pe).hi = pe := by
  unfold flushAtom
  split_ifs with h1
  · rfl
  · show ps = pe
    omega

theorem flushAtom_shape (ps pe : Int) : strictShape (flushAtom ps pe) := by
  unfold flushAtom
  split_ifs with h1
  · exact h1
  · trivial

/-- Behaviour of the forward merging loop of `iter_code_points` from a
live run `(ps, pe)` over a sorted suffix: the output covers exactly the
pending run plus the remaining items, respects the separation invariant,
starts at or after `ps`, and consists of well-shaped atoms. -/
theorem fwdGo_spec : ∀ (t : List Atom) (ps pe : Int),
    List.Sorted (fun a b => fwdKey a ≤ fwdKey b) t →
    (∀ a ∈ t, a.lo ≤ a.hi) → ps ≤ pe → (∀ a ∈ t, ps ≤ a.lo) →
    (∀ n, covered (fwdGo (some (ps, pe)) t) n ↔ ((ps ≤ n ∧ n ≤ pe) ∨ covered t n))
    ∧ List.Chain' sepOK (fwdGo (some (ps, pe)) t)
    ∧ (∀ b ∈ fwdGo (some (ps, pe)) t, ps ≤ b.lo)
    ∧ (∀ b ∈ fwdGo (some (ps, pe)) t, strictShape b ∧ b.lo ≤ b.hi) := by
  intro t
  induction t with
  | nil =>
      intro ps pe _ _ hle _
      refine ⟨?_, ?_, ?_, ?_⟩
      · intro n
        rw [show fwdGo (some (ps, pe)) [] = [flushAtom ps pe] from rfl, covered_cons]
        simp only [covered_nil, or_false, flushAtom_lo, flushAtom_hi hle]
      · exact List.chain'_singleton _
      · intro b hb
        rcases List.mem_singleton.mp hb with rfl
        rw [flushAtom_lo]
      · intro b hb
        rcases List.mem_singleton.mp hb with rfl
        exact ⟨flushAtom_shape ps pe, by rw [flushAtom_lo, flushAtom_hi hle]; exact hle⟩
  | cons a t2 ih =>
      intro ps pe hsort hvalid hle hlo
      have hsort2 : List.Sorted (fun a b => fwdKey a ≤ fwdKey b) t2 :=
        (List.sorted_cons.mp hsort).2
      have hak : ∀ b ∈ t2, a.lo ≤ b.lo := (List.sorted_cons.mp hsort).1
      have hva : a.lo ≤ a.hi := hvalid a (List.mem_cons_self _ _)
      have hvalid2 : ∀ b ∈ t2, b.lo ≤ b.hi := fun b hb => hvalid b (List.mem_cons_of_mem _ hb)
      rw [show fwdGo (some (ps, pe)) (a :: t2) =
        (if pe + 1 ≥ a.lo then fwdGo (some (ps, max pe a.hi)) t2
         else flushAtom ps pe :: fwdGo (some (a.lo, a.hi)) t2) from rfl]
      split_ifs with hm
      · -- the item merges into the pending run
        rcases ih ps (max pe a.hi) hsort2 hvalid2 (le_trans hle (le_max_left _ _))
          (fun b hb => hlo b (List.mem_cons_of_mem _ hb)) with ⟨ihc, ihchain, ihlo, ihshape⟩
        refine ⟨?_, ihchain, ihlo, ihshape⟩
        intro n
        rw [ihc n, covered_cons]
        have hpsa : ps ≤ a.lo := hlo a (List.mem_cons_self _ _)
        constructor
        · rintro (h | h)
          · rcases le_or_lt n pe with h2 | h2
            · exact Or.inl ⟨h.1, h2⟩
            · exact Or.inr (Or.inl (by omega))
          · exact Or.inr (Or.inr h)
        · rintro (h | h | h)
          · exact Or.inl ⟨h.1, le_trans h.2 (le_max_left _ _)⟩
          · refine Or.inl ⟨le_trans hpsa h.1, le_trans h.2 (le_max_right _ _)⟩
          · exact Or.inr h
      · -- gap: flush the pending run and start a new one
        rcases ih a.lo a.hi hsort2 hvalid2 hva hak with ⟨ihc, ihchain, ihlo, ihshape⟩
        refine ⟨?_, ?_, ?_, ?_⟩
        · intro n
          rw [covered_cons, flushAtom_lo, flushAtom_hi hle, covered_cons]
          rw [ihc n]
        · refine List.chain'_cons'.mpr ⟨?_, ihchain⟩
          intro y hy
          have hmem : y ∈ fwdGo (some (a.lo, a.hi)) t2 := List.mem_of_mem_head? hy
          have := ihlo y hmem
          show (flushAtom ps pe).hi + 1 < y.lo
          rw [flushAtom_hi hle]
          omega
        · intro b hb
          rcases List.mem_cons.mp hb with rfl | hbt
          · rw [flushAtom_lo]
          · have := ihlo b hbt
            have hpsa : ps ≤ a.lo := hlo a (List.mem_cons_self _ _)
            omega
        · intro b hb
          rcases List.mem_cons.mp hb with rfl | hbt
          · exact ⟨flushAtom_shape ps pe, by rw [flushAtom_lo, flushAtom_hi hle]; exact hle⟩
          · exact ihshape b hbt

/-- **C9.** For a finite iterable of items (singleton code points or
pairs with `lo ≤ hi`), `iter_code_points(items, reverse=False)` yields a
sequence of atoms whose covered code points are exactly the union of the
covered points of the inputs, whose consecutive atoms are strictly
increasing and separated by at least one missing code point (so
overlapping and adjacent inputs are coalesced), and in which a run of a
single code point appears as a bare integer and any wider run as a
pair. -/
theorem iter_code_points_forward_canonical : ∀ (items : List Atom),
    (∀ a ∈ items, a.lo ≤ a.hi) →
    (∀ n, covered (iter_code_points items false) n ↔ covered items n)
    ∧ ordered (iter_code_points items false)
    ∧ (∀ b ∈ iter_code_points items false, strictShape b ∧ b.lo ≤ b.hi) := by
  intro items hvalid
  have hperm := sortAsc_perm items
  have hsorted := sortAsc_sorted items
  rw [show iter_code_points items false = fwdGo none (sortAsc items) from rfl]
  rcases hs : sortAsc items with _ | ⟨a, t⟩
  · have : items = [] := by
      have := hperm
      rw [hs] at this
      exact (List.Perm.nil_eq this).symm
    subst this
    refine ⟨?_, ?_, ?_⟩
    · intro n; rfl
    · exact List.chain'_nil
    · intro b hb; cases hb
  · rw [hs] at hperm hsorted
    have hsort2 : List.Sorted (fun a b => fwdKey a ≤ fwdKey b) t :=
      (List.sorted_cons.mp hsorted).2
    have hak : ∀ b ∈ t, a.lo ≤ b.lo := (List.sorted_cons.mp hsorted).1
    have hv : ∀ b ∈ a :: t, b.lo ≤ b.hi := fun b hb => hvalid b (hperm.mem_iff.mp hb)
    have hva : a.lo ≤ a.hi := hv a (List.mem_cons_self _ _)
    rcases fwdGo_spec t a.lo a.hi hsort2 (fun b hb => hv b (List.mem_cons_of_mem _ hb)) hva hak
      with ⟨ihc, ihchain, _, ihshape⟩
    rw [show fwdGo none (a :: t) = fwdGo (some (a.lo, a.hi)) t from rfl]
    refine ⟨?_, ihchain, ihshape⟩
    intro n
    rw [ihc n, ← covered_perm hperm n, covered_cons]

/-- Witness for C9: overlapping and adjacent inputs `{5}, (3,4), (6,9)`
coalesce; the theorem applies at this concrete input. -/
theorem iter_code_points_forward_canonical_witness :
    (∀ n, covered (iter_code_points [Atom.single 5, Atom.range 3 4, Atom.range 6 9] false) n ↔
      covered [Atom.single 5, Atom.range 3 4, Atom.range 6 9] n)
    ∧ ordered (iter_code_points [Atom.single 5, Atom.range 3 4, Atom.range 6 9] false)
    ∧ (∀ b ∈ iter_code_points [Atom.single 5, Atom.range 3 4, Atom.range 6 9] false,
        strictShape b ∧ b.lo ≤ b.hi) :=
  iter_code_points_forward_canonical [Atom.single 5, Atom.range 3 4, Atom.range 6 9] (by decide)

/-! ## C4: the coalescing walk of complement -/

/-- The walk described by the specification sentence for `complement`:
for **each** atom, `diff = start - last` is computed; `diff < 0` raises
`ValueError`; `diff > 2` emits the range `(last, start - 1)`;
`diff = 2` emits the singletons `last` and `last + 1`; `diff = 1` emits
the singleton `last`; `diff = 0` emits nothing; after the last atom the
open end up to `maxunicode` is emitted (`maxunicode` as a singleton when
`last = maxunicode`, the range `(last, maxunicode)` when
`last < maxunicode`, nothing otherwise).  This definition follows the
claim's words; it has no early termination of the walk. -/
def complementSpecWalk (last : Int) : List Atom → Except String (List Atom)
  | [] =>
      .ok (if last = maxunicode then [Atom.single maxunicode]
           else if last < maxunicode then [Atom.range last maxunicode] else [])
  | cp :: rest =>
      let diff := cp.lo - last
      if diff < 0 then .error "code points unordered"
      else if diff > 2 then
        (fun t => Atom.range last (cp.lo - 1) :: t) <$> complementSpecWalk (cp.hi + 1) rest
      else if diff = 2 then
        (fun t => Atom.single last :: Atom.single (last + 1) :: t) <$>
          complementSpecWalk (cp.hi + 1) rest
      else if diff = 1 then
        (fun t => Atom.single last :: t) <$> complementSpecWalk (cp.hi + 1) rest
      else complementSpecWalk (cp.hi + 1) rest

/-- The claim's walk amended with the early termination present in the
code: as soon as `last` exceeds `maxunicode` the walk stops, emitting
nothing more (the atoms not yet visited are ignored, and no `diff` is
computed for them). -/
def complementSpecWalkStop (last : Int) : List Atom → Except String (List Atom)
  | [] =>
      .ok (if last = maxunicode then [Atom.single maxunicode]
           else if last < maxunicode then [Atom.range last maxunicode] else [])
  | cp :: rest =>
      if last > maxunicode then .ok []
      else
        let diff := cp.lo - last
        if diff < 0 then .error "code points unordered"
        else if diff > 2 then
          (fun t => Atom.range last (cp.lo - 1) :: t) <$> complementSpecWalkStop (cp.hi + 1) rest
        else if diff = 2 then
          (fun t => Atom.single last :: Atom.single (last + 1) :: t) <$>
            complementSpecWalkStop (cp.hi + 1) rest
        else if diff = 1 then
          (fun t => Atom.single last :: t) <$> complementSpecWalkStop (cp.hi + 1) rest
        else complementSpecWalkStop (cp.hi + 1) rest

/-- **C4 (counterexample).** The claim describes the walk as computing
`diff` for each atom and raising `ValueError` exactly when `diff < 0`.
On the list `[(0, maxunicode), 5]` the second atom has
`diff = 5 - (maxunicode + 1) < 0`, so the claimed walk raises; the code
instead breaks out of the loop (`last > maxunicode`) before computing
that `diff` and returns no gap atoms at all. -/
theorem complement_no_error_after_break :
    UnicodeSubset.complement [Atom.range 0 maxunicode, Atom.single 5] = .ok []
    ∧ complementSpecWalk 0 [Atom.range 0 maxunicode, Atom.single 5] =
        .error "code points unordered" :=
  ⟨by decide, by decide⟩

/-- **C4 (amended).** `complement` implements exactly the claimed
coalescing walk amended with the stop condition: keeping
`last` as one past the end of the previous atom, it computes
`diff = start - last` for each atom visited, raises `ValueError` with
message `code points unordered` exactly when a visited atom has
`diff < 0`, emits `(last, start-1)` when `diff > 2`, the singletons
`last, last+1` when `diff = 2`, the singleton `last` when `diff = 1`
and nothing when `diff = 0`, emits the open end up to `maxunicode`
after the last atom (singleton `maxunicode` when `last = maxunicode`,
range `(last, maxunicode)` when `last < maxunicode`, nothing
otherwise) — and stops the walk, emitting nothing more, as soon as
`last` exceeds `maxunicode`. -/
theorem complement_matches_spec_walk : ∀ (l : List Atom) (last : Int),
    UnicodeSubset.complementAux last l = complementSpecWalkStop last l := by
  intro l
  induction l with
  | nil =>
      intro last
      rw [show UnicodeSubset.complementAux last [] = .ok (UnicodeSubset.tailPiece last) from rfl]
      unfold complementSpecWalkStop UnicodeSubset.tailPiece
      rfl
  | cons cp rest ih =>
      intro last
      rw [show UnicodeSubset.complementAux last (cp :: rest) =
        (if last > maxunicode then .ok (UnicodeSubset.tailPiece last)
         else
          let diff := cp.lo - last
          if diff > 2 then
            (fun t => Atom.range last (cp.lo - 1) :: t) <$>
              UnicodeSubset.complementAux (cp.hi + 1) rest
          else if diff = 2 then
            (fun t => Atom.single last :: Atom.single (last + 1) :: t) <$>
              UnicodeSubset.complementAux (cp.hi + 1) rest
          else if diff = 1 then
            (fun t => Atom.single last :: t) <$> UnicodeSubset.complementAux (cp.hi + 1) rest
          else if diff ≠ 0 then .error "code points unordered"
          else UnicodeSubset.complementAux (cp.hi + 1) rest) from rfl]
      unfold complementSpecWalkStop
      simp only [ih]
      split_ifs with hbreak h1 h2 h3 h4 h5 h6 h7 h8 <;> first
        | rfl
        | (unfold UnicodeSubset.tailPiece; split_ifs <;> first | rfl | omega)
        | omega

/-! ## Shared machinery: building a subset by descending adds -/

theorem add_eq_ok {v : Atom} (l : List Atom) (h : atomOK v) :
    UnicodeSubset.add l v = .ok (UnicodeSubset.addAux v l) := by
  rcases h with ⟨h1, h2, h3⟩
  cases v with
  | single cp =>
      simp only [Atom.lo, Atom.hi] at h1 h2 h3
      simp [UnicodeSubset.add, h1, h3]
  | range lo hi =>
      simp only [Atom.lo, Atom.hi] at h1 h2 h3
      simp [UnicodeSubset.add, h1, h2, h3]

theorem discard_eq_ok {v : Atom} (l : List Atom) (h : atomOK v) :
    UnicodeSubset.discard l v = .ok (UnicodeSubset.discardAux l v) := by
  rcases h with ⟨h1, h2, h3⟩
  cases v with
  | single cp =>
      simp only [Atom.lo, Atom.hi] at h1 h2 h3
      simp [UnicodeSubset.discard, h1, h3]
  | range lo hi =>
      simp only [Atom.lo, Atom.hi] at h1 h2 h3
      simp [UnicodeSubset.discard, h1, h2, h3]

/-- A value strictly below and separated from the head of the list is
inserted at the front by the `add` loop. -/
theorem addAux_front {v cp : Atom} (rest : List Atom) (h : v.hi + 1 < cp.lo)
    (hv : v.lo ≤ v.hi) : UnicodeSubset.addAux v (cp :: rest) = v :: cp :: rest := by
  rw [addAux_cons, if_pos (by omega), if_neg (by omega)]

/-- In a descending separated chain every later atom ends strictly below
the head's start. -/
theorem desc_head_sep {cp : Atom} {rest : List Atom}
    (hok : ∀ a ∈ cp :: rest, a.lo ≤ a.hi)
    (hch : List.Chain' (fun a b => b.hi + 1 < a.lo) (cp :: rest)) :
    ∀ b ∈ rest, b.hi + 1 < cp.lo := by
  induction rest with
  | nil => intro b hb; cases hb
  | cons c t ih =>
      intro b hb
      have hsep : c.hi + 1 < cp.lo := (List.chain'_cons.mp hch).1
      rcases List.mem_cons.mp hb with rfl | hbt
      · exact hsep
      · have hct : List.Chain' (fun a b => b.hi + 1 < a.lo) (c :: t) :=
          (List.chain'_cons.mp hch).2
        have hcp : List.Chain' (fun a b => b.hi + 1 < a.lo) (cp :: t) := by
          rcases t with _ | ⟨d, t2⟩
          · exact List.chain'_singleton cp
          · refine List.chain'_cons.mpr ⟨?_, (List.chain'_cons.mp hct).2⟩
            have hcd : d.hi + 1 < c.lo := (List.chain'_cons.mp hct).1
            have h6 : c.lo ≤ c.hi := hok c (List.mem_cons_of_mem _ (List.mem_cons_self _ _))
            omega
        have hok2 : ∀ a ∈ cp :: t, a.lo ≤ a.hi := by
          intro a ha
          rcases List.mem_cons.mp ha with rfl | hat
          · exact hok a (List.mem_cons_self _ _)
          · exact hok a (List.mem_cons_of_mem _ (List.mem_cons_of_mem _ hat))
        exact ih hok2 hcp b hbt

/-- Folding validated `add` over a descending separated list of valid
atoms prepends each one, building the reversed list and never raising. -/
theorem foldlM_add_desc : ∀ (D acc : List Atom),
    (∀ a ∈ D, atomOK a) →
    List.Chain' (fun a b => b.hi + 1 < a.lo) D →
    (∀ a ∈ D, ∀ b ∈ acc, a.hi + 1 < b.lo) →
    D.foldlM UnicodeSubset.add acc = Except.ok (D.reverse ++ acc) := by
  intro D
  induction D with
  | nil => intro acc _ _ _; rfl
  | cons a D2 ih =>
      intro acc hok hch hacc
      have ha : atomOK a := hok a (List.mem_cons_self _ _)
      have hstep : UnicodeSubset.add acc a = .ok (a :: acc) := by
        rcases acc with _ | ⟨b, acc2⟩
        · rw [add_eq_ok [] ha]; rfl
        · rw [add_eq_ok (b :: acc2) ha,
            addAux_front acc2 (hacc a (List.mem_cons_self _ _) b (List.mem_cons_self _ _))
              ha.2.1]
      rw [List.foldlM_cons, hstep]
      show D2.foldlM UnicodeSubset.add (a :: acc) = Except.ok ((a :: D2).reverse ++ acc)
      have hsep2 := desc_head_sep (fun x hx => (hok x hx).2.1) hch
      have hrec := ih (a :: acc) (fun x hx => hok x (List.mem_cons_of_mem _ hx))
        (List.chain'_cons'.mp hch).2 ?_
      · rw [hrec]
        simp [List.reverse_cons, List.append_assoc]
      · intro x hx b hb
        rcases List.mem_cons.mp hb with rfl | hba
        · exact hsep2 x hx
        · exact hacc x (List.mem_cons_of_mem _ hx) b hba

/-- Inserting an atom whose end is strictly below every end of a
descending-by-end list places it at the back. -/
theorem orderedInsert_desc_append (a : Atom) : ∀ (m : List Atom),
    (∀ b ∈ m, a.hi < b.hi) →
    List.orderedInsert (fun x y => revKey y ≤ revKey x) a m = m ++ [a] := by
  intro m
  induction m with
  | nil => intro _; rfl
  | cons b m2 ih =>
      intro h
      have hb : a.hi < b.hi := h b (List.mem_cons_self _ _)
      rw [List.orderedInsert, if_neg (by simp only [revKey]; omega),
        ih (fun c hc => h c (List.mem_cons_of_mem _ hc))]
      rfl

/-- Sorting a list whose ends are strictly ascending in descending end
order reverses it. -/
theorem sortDesc_eq_reverse : ∀ (l : List Atom),
    List.Pairwise (fun x y => x.hi < y.hi) l → sortDesc l = l.reverse := by
  intro l
  induction l with
  | nil => intro _; rfl
  | cons a t ih =>
      intro h
      rw [List.reverse_cons]
      show List.orderedInsert (fun x y => revKey y ≤ revKey x) a (sortDesc t) = t.reverse ++ [a]
      rw [ih (List.Pairwise.of_cons h),
        orderedInsert_desc_append a t.reverse
          (fun b hb => (List.pairwise_cons.mp h).1 b (List.mem_reverse.mp hb))]

/-- When the pending run of the reverse merge loop cannot absorb the
next item, it is flushed and the loop restarts clean. -/
theorem revGo_flush (ps pe : Int) (L : List Atom)
    (h : ∀ a ∈ L.head?, ps - 1 > a.hi) :
    revGo (some (ps, pe)) L = flushAtom ps pe :: revGo none L := by
  cases L with
  | nil => rfl
  | cons a t =>
      have ha : ps - 1 > a.hi := h a rfl
      rw [show revGo (some (ps, pe)) (a :: t) =
        (if ps - 1 ≤ a.hi then revGo (some (min ps a.lo, pe)) t
         else flushAtom ps pe :: revGo (some (a.lo, a.hi)) t) from rfl,
        if_neg (by omega)]
      rfl

/-! ## The gap structure of complement -/

/-- Ascending, separated, valid atoms as seen from cursor `last`. -/
def ascFrom (last : Int) : List Atom → Prop
  | [] => True
  | cp :: rest => last ≤ cp.lo ∧ cp.lo ≤ cp.hi ∧ cp.hi ≤ maxunicode ∧ ascFrom (cp.hi + 2) rest

theorem ascFrom_mono : ∀ {l : List Atom} {last last2 : Int},
    last2 ≤ last → ascFrom last l → ascFrom last2 l := by
  intro l
  cases l with
  | nil => intro _ _ _ _; trivial
  | cons cp rest =>
      intro last last2 hle h
      exact ⟨le_trans hle h.1, h.2.1, h.2.2.1, h.2.2.2⟩

theorem invariant_ascFrom_aux : ∀ (l : List Atom), (∀ a ∈ l, atomOK a) → ordered l →
    ∀ last, (∀ b ∈ l.head?, last ≤ b.lo) → ascFrom last l := by
  intro l
  induction l with
  | nil => intro _ _ _ _; trivial
  | cons cp rest ih =>
      intro hok hord last hhead
      have hcp : atomOK cp := hok cp (List.mem_cons_self _ _)
      refine ⟨hhead cp rfl, hcp.2.1, hcp.2.2, ?_⟩
      refine ih (fun a ha => hok a (List.mem_cons_of_mem _ ha)) hord.tail (cp.hi + 2) ?_
      intro b hb
      have hbm : b ∈ rest := List.mem_of_mem_head? hb
      rcases rest with _ | ⟨c, t⟩
      · cases hbm
      · have hsep : sepOK cp c := (List.chain'_cons.mp hord).1
        have hbc : c = b := by
          simpa using hb
        subst hbc
        unfold sepOK at hsep
        omega

theorem invariant_ascFrom {l : List Atom} (h : invariant l) : ascFrom 0 l :=
  invariant_ascFrom_aux l h.1 h.2 0 (fun b hb => (h.1 b (List.mem_of_mem_head? hb)).1)

/-- The gap atoms the complement walk emits for the gap `[last, start)`. -/
def gapAtoms (last start : Int) : List Atom :=
  if start - last > 2 then [Atom.range last (start - 1)]
  else if start - last = 2 then [Atom.single last, Atom.single (last + 1)]
  else if start - last = 1 then [Atom.single last]
  else []

/-- All gap atoms between the atoms of the list (without the open end). -/
def gapsBody (last : Int) : List Atom → List Atom
  | [] => []
  | cp :: rest => gapAtoms last cp.lo ++ gapsBody (cp.hi + 1) rest

/-- The final cursor after walking the whole list. -/
def endLast (last : Int) : List Atom → Int
  | [] => last
  | cp :: rest => endLast (cp.hi + 1) rest

/-- The full output of the complement walk. -/
def gaps (last : Int) (l : List Atom) : List Atom :=
  gapsBody last l ++ UnicodeSubset.tailPiece (endLast last l)

/-- The gap atoms after reconstruction: a two-wide gap becomes one
two-wide range instead of two adjacent singletons. -/
def coalGapAtoms (last start : Int) : List Atom :=
  if start - last ≥ 2 then [Atom.range last (start - 1)]
  else if start - last = 1 then [Atom.single last]
  else []

def coalBody (last : Int) : List Atom → List Atom
  | [] => []
  | cp :: rest => coalGapAtoms last cp.lo ++ coalBody (cp.hi + 1) rest

def coalGaps (last : Int) (l : List Atom) : List Atom :=
  coalBody last l ++ UnicodeSubset.tailPiece (endLast last l)

theorem gaps_nil (last : Int) : gaps last [] = UnicodeSubset.tailPiece last := rfl

theorem gaps_cons (last : Int) (cp : Atom) (rest : List Atom) :
    gaps last (cp :: rest) = gapAtoms last cp.lo ++ gaps (cp.hi + 1) rest := by
  show (gapAtoms last cp.lo ++ gapsBody (cp.hi + 1) rest) ++
      UnicodeSubset.tailPiece (endLast (cp.hi + 1) rest) =
    gapAtoms last cp.lo ++ (gapsBody (cp.hi + 1) rest ++
      UnicodeSubset.tailPiece (endLast (cp.hi + 1) rest))
  rw [List.append_assoc]

theorem coalGaps_cons (last : Int) (cp : Atom) (rest : List Atom) :
    coalGaps last (cp :: rest) = coalGapAtoms last cp.lo ++ coalGaps (cp.hi + 1) rest := by
  show (coalGapAtoms last cp.lo ++ coalBody (cp.hi + 1) rest) ++
      UnicodeSubset.tailPiece (endLast (cp.hi + 1) rest) =
    coalGapAtoms last cp.lo ++ (coalBody (cp.hi + 1) rest ++
      UnicodeSubset.tailPiece (endLast (cp.hi + 1) rest))
  rw [List.append_assoc]

/-- On an ascending separated valid list the complement walk never
raises and emits exactly the gap atoms. -/
theorem complementAux_eq_gaps : ∀ (l : List Atom) (last : Int),
    ascFrom last l → UnicodeSubset.complementAux last l = .ok (gaps last l) := by
  intro l
  induction l with
  | nil => intro last _; rfl
  | cons cp rest ih =>
      intro last hasc
      rcases hasc with ⟨h1, h2, h3, h4⟩
      have hrec := ih (cp.hi + 1) (ascFrom_mono (by omega) h4)
      rw [show UnicodeSubset.complementAux last (cp :: rest) =
        (if last > maxunicode then .ok (UnicodeSubset.tailPiece last)
         else
          let diff := cp.lo - last
          if diff > 2 then
            (fun t => Atom.range last (cp.lo - 1) :: t) <$>
              UnicodeSubset.complementAux (cp.hi + 1) rest
          else if diff = 2 then
            (fun t => Atom.single last :: Atom.single (last + 1) :: t) <$>
              UnicodeSubset.complementAux (cp.hi + 1) rest
          else if diff = 1 then
            (fun t => Atom.single last :: t) <$> UnicodeSubset.complementAux (cp.hi + 1) rest
          else if diff ≠ 0 then .error "code points unordered"
          else UnicodeSubset.complementAux (cp.hi + 1) rest) from rfl]
      rw [if_neg (by omega)]
      rw [gaps_cons]
      simp only [hrec]
      unfold gapAtoms
      split_ifs with g1 g2 g3 g4 <;> first
        | rfl
        | omega

/-- Bounds of the atoms of `tailPiece`. -/
theorem tailPiece_facts (last : Int) (_h0 : 0 ≤ last) :
    (∀ a ∈ UnicodeSubset.tailPiece last, last ≤ a.lo ∧ a.lo ≤ a.hi ∧ a.hi ≤ maxunicode)
    ∧ List.Pairwise (fun x y => x.hi < y.hi) (UnicodeSubset.tailPiece last) := by
  unfold UnicodeSubset.tailPiece
  split_ifs with h1 h2
  · refine ⟨?_, List.pairwise_singleton _ _⟩
    intro a ha
    rcases List.mem_singleton.mp ha with rfl
    refine ⟨by simp [Atom.lo]; omega, by simp [Atom.lo, Atom.hi], by simp [Atom.hi]⟩
  · refine ⟨?_, List.pairwise_singleton _ _⟩
    intro a ha
    rcases List.mem_singleton.mp ha with rfl
    refine ⟨by simp [Atom.lo], by simp [Atom.lo, Atom.hi]; omega, by simp [Atom.hi]⟩
  · exact ⟨fun a ha => absurd ha (List.not_mem_nil a), List.Pairwise.nil⟩

/-- Bounds and strict end ordering of the full gap list of an ascending
separated valid list. -/
theorem gaps_facts : ∀ (l : List Atom) (last : Int), ascFrom last l → 0 ≤ last →
    (∀ a ∈ gaps last l, last ≤ a.lo ∧ a.lo ≤ a.hi ∧ a.hi ≤ maxunicode)
    ∧ List.Pairwise (fun x y => x.hi < y.hi) (gaps last l) := by
  intro l
  induction l with
  | nil =>
      intro last _ h0
      exact tailPiece_facts last h0
  | cons cp rest ih =>
      intro last hasc h0
      rcases hasc with ⟨h1, h2, h3, h4⟩
      rcases ih (cp.hi + 1) (ascFrom_mono (by omega) h4) (by omega) with ⟨ihb, ihp⟩
      rw [gaps_cons]
      have hblock : ∀ a ∈ gapAtoms last cp.lo,
          last ≤ a.lo ∧ a.lo ≤ a.hi ∧ a.hi ≤ cp.lo - 1 := by
        intro a ha
        unfold gapAtoms at ha
        split_ifs at ha with g1 g2 g3
        · rcases List.mem_singleton.mp ha with rfl
          refine ⟨le_refl last, ?_, le_refl _⟩
          show last ≤ cp.lo - 1
          omega
        · rcases List.mem_cons.mp ha with rfl | ha2
          · refine ⟨le_refl last, le_refl last, ?_⟩
            show last ≤ cp.lo - 1
            omega
          · rcases List.mem_singleton.mp ha2 with rfl
            refine ⟨?_, le_refl _, ?_⟩
            · show last ≤ last + 1
              omega
            · show last + 1 ≤ cp.lo - 1
              omega
        · rcases List.mem_singleton.mp ha with rfl
          refine ⟨le_refl last, le_refl last, ?_⟩
          show last ≤ cp.lo - 1
          omega
        · cases ha
      constructor
      · intro a ha
        rcases List.mem_append.mp ha with hb | hg
        · have := hblock a hb
          omega
        · have := ihb a hg
          omega
      · rw [List.pairwise_append]
        refine ⟨?_, ihp, ?_⟩
        · unfold gapAtoms
          split_ifs with g1 g2 g3
          · exact List.pairwise_singleton _ _
          · refine List.pairwise_cons.mpr ⟨?_, List.pairwise_singleton _ _⟩
            intro y hy
            rcases List.mem_singleton.mp hy with rfl
            show last < last + 1
            omega
          · exact List.pairwise_singleton _ _
          · exact List.Pairwise.nil
        · intro x hx y hy
          have hxb := hblock x hx
          have hyb := ihb y hy
          omega

theorem gapAtoms_facts (last start : Int) :
    ∀ a ∈ gapAtoms last start, last ≤ a.lo ∧ a.lo ≤ a.hi ∧ a.hi ≤ start - 1 := by
  intro a ha
  unfold gapAtoms at ha
  split_ifs at ha with g1 g2 g3
  · rcases List.mem_singleton.mp ha with rfl
    refine ⟨le_refl last, ?_, le_refl _⟩
    show last ≤ start - 1
    omega
  · rcases List.mem_cons.mp ha with rfl | ha2
    · refine ⟨le_refl last, le_refl last, ?_⟩
      show last ≤ start - 1
      omega
    · rcases List.mem_singleton.mp ha2 with rfl
      refine ⟨?_, le_refl _, ?_⟩
      · show last ≤ last + 1
        omega
      · show last + 1 ≤ start - 1
        omega
  · rcases List.mem_singleton.mp ha with rfl
    refine ⟨le_refl last, le_refl last, ?_⟩
    show last ≤ start - 1
    omega
  · cases ha

theorem coalGapAtoms_facts (last start : Int) :
    ∀ a ∈ coalGapAtoms last start, a.lo = last ∧ a.lo ≤ a.hi ∧ a.hi = start - 1 := by
  intro a ha
  unfold coalGapAtoms at ha
  split_ifs at ha with g1 g2
  · rcases List.mem_singleton.mp ha with rfl
    refine ⟨rfl, ?_, rfl⟩
    show last ≤ start - 1
    omega
  · rcases List.mem_singleton.mp ha with rfl
    refine ⟨rfl, le_refl last, ?_⟩
    show last = start - 1
    omega
  · cases ha

theorem endLast_ge : ∀ (l : List Atom) (last : Int), ascFrom last l →
    last ≤ endLast last l := by
  intro l
  induction l with
  | nil => intro last _; exact le_refl _
  | cons cp rest ih =>
      intro last hasc
      rcases hasc with ⟨h1, h2, _, h4⟩
      have := ih (cp.hi + 1) (ascFrom_mono (by omega) h4)
      show last ≤ endLast (cp.hi + 1) rest
      omega

theorem gapsBody_facts : ∀ (l : List Atom) (last : Int), ascFrom last l →
    ∀ b ∈ gapsBody last l, last ≤ b.lo ∧ b.lo ≤ b.hi ∧ b.hi + 1 < endLast last l := by
  intro l
  induction l with
  | nil => intro last _ b hb; cases hb
  | cons cp rest ih =>
      intro last hasc b hb
      rcases hasc with ⟨h1, h2, h3, h4⟩
      have hend := endLast_ge rest (cp.hi + 1) (ascFrom_mono (by omega) h4)
      have hEL : endLast last (cp :: rest) = endLast (cp.hi + 1) rest := rfl
      rcases List.mem_append.mp hb with hbB | hbR
      · have := gapAtoms_facts last cp.lo b hbB
        rw [hEL]
        omega
      · have := ih (cp.hi + 1) (ascFrom_mono (by omega) h4) b hbR
        rw [hEL]
        omega

/-- Processing one reversed gap block (followed by strictly lower
material) coalesces a two-wide gap into a single range atom and leaves
the other shapes alone. -/
theorem revGo_block (last start : Int) (Z : List Atom)
    (hZ : ∀ z ∈ Z, z.hi + 1 < last) (hw : 0 ≤ start - last) :
    revGo none ((gapAtoms last start).reverse ++ Z) =
      (coalGapAtoms last start).reverse ++ revGo none Z := by
  have hZh : ∀ (ps : Int), last ≤ ps → ∀ a ∈ Z.head?, ps - 1 > a.hi := by
    intro ps hp a ha
    have := hZ a (List.mem_of_mem_head? ha)
    omega
  rcases (show start - last > 2 ∨ start - last = 2 ∨ start - last = 1 ∨ start - last = 0
    from by omega) with hw3 | hw2 | hw1 | hw0
  · rw [show gapAtoms last start = [Atom.range last (start - 1)] from by
      unfold gapAtoms; rw [if_pos hw3]]
    rw [show coalGapAtoms last start = [Atom.range last (start - 1)] from by
      unfold coalGapAtoms; rw [if_pos (by omega)]]
    show revGo (some (last, start - 1)) Z = Atom.range last (start - 1) :: revGo none Z
    rw [revGo_flush last (start - 1) Z (hZh last (le_refl _))]
    rw [show flushAtom last (start - 1) = Atom.range last (start - 1) from by
      unfold flushAtom; rw [if_pos (by omega)]]
  · rw [show gapAtoms last start = [Atom.single last, Atom.single (last + 1)] from by
      unfold gapAtoms; rw [if_neg (by omega), if_pos hw2]]
    rw [show coalGapAtoms last start = [Atom.range last (start - 1)] from by
      unfold coalGapAtoms; rw [if_pos (by omega)]]
    show revGo (some (last + 1, last + 1)) (Atom.single last :: Z) =
      Atom.range last (start - 1) :: revGo none Z
    rw [show revGo (some (last + 1, last + 1)) (Atom.single last :: Z) =
      (if last + 1 - 1 ≤ (Atom.single last).hi then
        revGo (some (min (last + 1) (Atom.single last).lo, last + 1)) Z
       else flushAtom (last + 1) (last + 1) ::
        revGo (some ((Atom.single last).lo, (Atom.single last).hi)) Z) from rfl]
    rw [if_pos (by show last + 1 - 1 ≤ last; omega)]
    rw [show min (last + 1) (Atom.single last).lo = last from by
      show min (last + 1) last = last; omega]
    rw [revGo_flush last (last + 1) Z (hZh last (le_refl _))]
    rw [show flushAtom last (last + 1) = Atom.range last (start - 1) from by
      unfold flushAtom; rw [if_pos (by omega)]; rw [show start - 1 = last + 1 from by omega]]
  · rw [show gapAtoms last start = [Atom.single last] from by
      unfold gapAtoms; rw [if_neg (by omega), if_neg (by omega), if_pos hw1]]
    rw [show coalGapAtoms last start = [Atom.single last] from by
      unfold coalGapAtoms; rw [if_neg (by omega), if_pos hw1]]
    show revGo (some (last, last)) Z = Atom.single last :: revGo none Z
    rw [revGo_flush last last Z (hZh last (le_refl _))]
    rw [show flushAtom last last = Atom.single last from by
      unfold flushAtom; rw [if_neg (by omega)]]
  · rw [show gapAtoms last start = [] from by
      unfold gapAtoms; rw [if_neg (by omega), if_neg (by omega), if_neg (by omega)]]
    rw [show coalGapAtoms last start = [] from by
      unfold coalGapAtoms; rw [if_neg (by omega), if_neg (by omega)]]
    rfl

/-- Processing the reversed gap body from a pending state that cannot
merge with it: the state is flushed first, then each gap block is
coalesced, and finally the continuation `Z` is processed afresh. -/
theorem revGo_gapsBody : ∀ (l : List Atom) (last : Int) (Z : List Atom)
    (st : Option (Int × Int)),
    ascFrom last l →
    (∀ z ∈ Z, z.hi + 1 < last) →
    (∀ ps pe, st = some (ps, pe) → ps ≤ pe ∧
      (∀ b ∈ gapsBody last l, b.hi + 1 < ps) ∧ (∀ z ∈ Z, z.hi + 1 < ps)) →
    revGo st ((gapsBody last l).reverse ++ Z) =
      (match st with | none => [] | some (ps, pe) => [flushAtom ps pe]) ++
        ((coalBody last l).reverse ++ revGo none Z) := by
  intro l
  induction l with
  | nil =>
      intro last Z st _ _ hst
      show revGo st Z = _
      rcases st with _ | ⟨ps, pe⟩
      · rfl
      · rcases hst ps pe rfl with ⟨_, _, hZp⟩
        rw [revGo_flush ps pe Z
          (fun a ha => by have := hZp a (List.mem_of_mem_head? ha); omega)]
        rfl
  | cons a rest ih =>
      intro last Z st hasc hZ hst
      rcases hasc with ⟨h1, h2, h3, h4⟩
      have hasc2 : ascFrom (a.hi + 1) rest := ascFrom_mono (by omega) h4
      have hB := gapAtoms_facts last a.lo
      have hbodyeq : gapsBody last (a :: rest) =
          gapAtoms last a.lo ++ gapsBody (a.hi + 1) rest := rfl
      have hcoaleq : coalBody last (a :: rest) =
          coalGapAtoms last a.lo ++ coalBody (a.hi + 1) rest := rfl
      rw [hbodyeq, List.reverse_append, List.append_assoc]
      have hZ2 : ∀ z ∈ (gapAtoms last a.lo).reverse ++ Z, z.hi + 1 < a.hi + 1 := by
        intro z hz
        rcases List.mem_append.mp hz with hzB | hzZ
        · have := hB z (List.mem_reverse.mp hzB)
          omega
        · have := hZ z hzZ
          omega
      have hst2 : ∀ ps pe, st = some (ps, pe) → ps ≤ pe ∧
          (∀ b ∈ gapsBody (a.hi + 1) rest, b.hi + 1 < ps) ∧
          (∀ z ∈ (gapAtoms last a.lo).reverse ++ Z, z.hi + 1 < ps) := by
        intro ps pe heq
        rcases hst ps pe heq with ⟨hpe, hbody, hZp⟩
        refine ⟨hpe, ?_, ?_⟩
        · intro b hb
          have hbmem : b ∈ gapsBody last (a :: rest) := by
            rw [hbodyeq]
            exact List.mem_append.mpr (Or.inr hb)
          exact hbody b hbmem
        · intro z hz
          rcases List.mem_append.mp hz with hzB | hzZ
          · have hzmem : z ∈ gapsBody last (a :: rest) := by
              rw [hbodyeq]
              exact List.mem_append.mpr (Or.inl (List.mem_reverse.mp hzB))
            exact hbody z hzmem
          · exact hZp z hzZ
      rw [ih (a.hi + 1) ((gapAtoms last a.lo).reverse ++ Z) st hasc2 hZ2 hst2]
      rw [revGo_block last a.lo Z hZ (by omega)]
      rw [hcoaleq, List.reverse_append, List.append_assoc]

/-- The reverse-mode `iter_code_points` of the complement output: the
atoms come back in descending order with each two-wide gap coalesced. -/
theorem iterRev_gaps : ∀ (l : List Atom) (last : Int), ascFrom last l → 0 ≤ last →
    iter_code_points (gaps last l) true = (coalGaps last l).reverse := by
  intro l last hasc h0
  rcases gaps_facts l last hasc h0 with ⟨_, hpair⟩
  rw [show iter_code_points (gaps last l) true = revGo none (sortDesc (gaps last l)) from rfl,
    sortDesc_eq_reverse _ hpair]
  have hbody := gapsBody_facts l last hasc
  rw [show gaps last l = gapsBody last l ++ UnicodeSubset.tailPiece (endLast last l) from rfl,
    List.reverse_append]
  rw [show coalGaps last l = coalBody last l ++ UnicodeSubset.tailPiece (endLast last l) from rfl,
    List.reverse_append]
  rw [← List.append_nil ((gapsBody last l).reverse)]
  unfold UnicodeSubset.tailPiece
  split_ifs with he1 he2
  · show revGo (some (maxunicode, maxunicode)) ((gapsBody last l).reverse ++ []) =
      [Atom.single maxunicode].reverse ++ (coalBody last l).reverse
    rw [revGo_gapsBody l last [] (some (maxunicode, maxunicode)) hasc
      (fun z hz => absurd hz (List.not_mem_nil z)) ?_]
    · show [flushAtom maxunicode maxunicode] ++ ((coalBody last l).reverse ++ []) =
        [Atom.single maxunicode].reverse ++ (coalBody last l).reverse
      rw [show flushAtom maxunicode maxunicode = Atom.single maxunicode from by
        unfold flushAtom; rw [if_neg (by omega)]]
      simp
    · intro ps pe heq
      have hpspe : maxunicode = ps ∧ maxunicode = pe := by simpa using heq
      refine ⟨by omega, ?_, fun z hz => absurd hz (List.not_mem_nil z)⟩
      intro b hb
      have := hbody b hb
      omega
  · show revGo (some (endLast last l, maxunicode)) ((gapsBody last l).reverse ++ []) =
      [Atom.range (endLast last l) maxunicode].reverse ++ (coalBody last l).reverse
    rw [revGo_gapsBody l last [] (some (endLast last l, maxunicode)) hasc
      (fun z hz => absurd hz (List.not_mem_nil z)) ?_]
    · show [flushAtom (endLast last l) maxunicode] ++ ((coalBody last l).reverse ++ []) =
        [Atom.range (endLast last l) maxunicode].reverse ++ (coalBody last l).reverse
      rw [show flushAtom (endLast last l) maxunicode =
        Atom.range (endLast last l) maxunicode from by
          unfold flushAtom; rw [if_pos (by omega)]]
      simp
    · intro ps pe heq
      have hpspe : endLast last l = ps ∧ maxunicode = pe := by simpa using heq
      refine ⟨by omega, ?_, fun z hz => absurd hz (List.not_mem_nil z)⟩
      intro b hb
      have := hbody b hb
      omega
  · show revGo none ((gapsBody last l).reverse ++ []) =
      ([] : List Atom).reverse ++ (coalBody last l).reverse
    rw [revGo_gapsBody l last [] none hasc
      (fun z hz => absurd hz (List.not_mem_nil z)) (fun ps pe heq => by cases heq)]
    show ([] : List Atom) ++ ((coalBody last l).reverse ++ []) =
      ([] : List Atom).reverse ++ (coalBody last l).reverse
    simp

/-- Named unfolding of one step of the complement walk. -/
theorem complementAux_cons (last : Int) (cp : Atom) (rest : List Atom) :
    UnicodeSubset.complementAux last (cp :: rest) =
      (if last > maxunicode then .ok (UnicodeSubset.tailPiece last)
       else
        let diff := cp.lo - last
        if diff > 2 then
          (fun t => Atom.range last (cp.lo - 1) :: t) <$>
            UnicodeSubset.complementAux (cp.hi + 1) rest
        else if diff = 2 then
          (fun t => Atom.single last :: Atom.single (last + 1) :: t) <$>
            UnicodeSubset.complementAux (cp.hi + 1) rest
        else if diff = 1 then
          (fun t => Atom.single last :: t) <$> UnicodeSubset.complementAux (cp.hi + 1) rest
        else if diff ≠ 0 then .error "code points unordered"
        else UnicodeSubset.complementAux (cp.hi + 1) rest) := rfl

theorem coalGapAtoms_zero (last start : Int) (h : start - last = 0) :
    coalGapAtoms last start = [] := by
  unfold coalGapAtoms
  rw [if_neg (by omega), if_neg (by omega)]

theorem coalGapAtoms_pos (last start : Int) (h : 1 ≤ start - last) :
    ∃ x, coalGapAtoms last start = [x] ∧ x.lo = last ∧ x.hi = start - 1 := by
  unfold coalGapAtoms
  rcases (show 2 ≤ start - last ∨ start - last = 1 from by omega) with h2 | h1
  · exact ⟨Atom.range last (start - 1), by rw [if_pos h2], rfl, rfl⟩
  · refine ⟨Atom.single last, by rw [if_neg (by omega), if_pos h1], rfl, ?_⟩
    show last = start - 1
    omega

/-- The rebuilt subset `coalGaps` is a valid invariant atom list whose
atoms start at or after the cursor. -/
theorem coalGaps_facts : ∀ (l : List Atom) (last : Int), ascFrom last l → 0 ≤ last →
    (∀ a ∈ coalGaps last l, atomOK a ∧ last ≤ a.lo) ∧ ordered (coalGaps last l) := by
  intro l
  induction l with
  | nil =>
      intro last _ h0
      rcases tailPiece_facts last h0 with ⟨hb, _⟩
      constructor
      · intro a ha
        have := hb a ha
        exact ⟨⟨by omega, by omega, by omega⟩, by omega⟩
      · show List.Chain' sepOK (UnicodeSubset.tailPiece last)
        unfold UnicodeSubset.tailPiece
        split_ifs
        · exact List.chain'_singleton _
        · exact List.chain'_singleton _
        · exact List.chain'_nil
  | cons a rest ih =>
      intro last hasc h0
      rcases hasc with ⟨h1, h2, h3, h4⟩
      have hasc2 : ascFrom (a.hi + 1) rest := ascFrom_mono (by omega) h4
      rcases ih (a.hi + 1) hasc2 (by omega) with ⟨ihb, ihord⟩
      rw [coalGaps_cons]
      have hblock := coalGapAtoms_facts last a.lo
      constructor
      · intro b hb
        rcases List.mem_append.mp hb with hbB | hbR
        · have := hblock b hbB
          exact ⟨⟨by omega, by omega, by omega⟩, by omega⟩
        · have := ihb b hbR
          exact ⟨this.1, by have := this.2; omega⟩
      · show List.Chain' sepOK (coalGapAtoms last a.lo ++ coalGaps (a.hi + 1) rest)
        rw [List.chain'_append]
        refine ⟨?_, ihord, ?_⟩
        · unfold coalGapAtoms
          split_ifs
          · exact List.chain'_singleton _
          · exact List.chain'_singleton _
          · exact List.chain'_nil
        · intro x hx y hy
          have hxm := hblock x (List.mem_of_mem_getLast? hx)
          have hym := ihb y (List.mem_of_mem_head? hy)
          show x.hi + 1 < y.lo
          rcases hym with ⟨_, hylo⟩
          omega

/-- When every gap in sight is non-empty the rebuilt list starts exactly
at the cursor. -/
theorem coalGaps_head_lo : ∀ (l : List Atom) (last : Int), ascFrom last l →
    last ≤ maxunicode → (∀ b ∈ l.head?, last < b.lo) →
    ∃ x xs, coalGaps last l = x :: xs ∧ x.lo = last := by
  intro l last hasc hle hgap
  cases l with
  | nil =>
      show ∃ x xs, UnicodeSubset.tailPiece last = x :: xs ∧ x.lo = last
      unfold UnicodeSubset.tailPiece
      split_ifs with hq1 hq2
      · exact ⟨Atom.single maxunicode, [], rfl, by show maxunicode = last; omega⟩
      · exact ⟨Atom.range last maxunicode, [], rfl, rfl⟩
      · exact absurd hle (by omega)
  | cons b rest =>
      have hb : last < b.lo := hgap b rfl
      rcases coalGapAtoms_pos last b.lo (by omega) with ⟨x, hx, hxlo, _⟩
      rw [coalGaps_cons, hx]
      exact ⟨x, coalGaps (b.hi + 1) rest, rfl, hxlo⟩

/-- The open end of the walk reproduces the final atom of a subset
reaching `maxunicode`. -/
theorem tailPiece_eq_self {a : Atom} (hsh : wideShape a) (hhi : a.hi = maxunicode)
    (hok : a.lo ≤ a.hi) : UnicodeSubset.tailPiece a.lo = [a] := by
  cases a with
  | single cp =>
      simp only [Atom.lo, Atom.hi] at hhi hok ⊢
      unfold UnicodeSubset.tailPiece
      rw [if_pos hhi, hhi]
  | range lo hi =>
      have hwide : lo + 2 ≤ hi := hsh
      simp only [Atom.lo, Atom.hi] at hhi hok ⊢
      unfold UnicodeSubset.tailPiece
      rw [if_neg (by omega), if_pos (by omega), hhi]

/-- Complementing the rebuilt complement reproduces the original
subset, provided the original's range atoms span at least three code
points. -/
theorem complement_coalGaps : ∀ (l : List Atom) (last : Int),
    0 ≤ last → ascFrom last l → (∀ a ∈ l, wideShape a) →
    UnicodeSubset.complementAux last (coalGaps last l) = .ok l := by
  intro l
  induction l with
  | nil =>
      intro last _ _ _
      show UnicodeSubset.complementAux last (UnicodeSubset.tailPiece last) = .ok []
      unfold UnicodeSubset.tailPiece
      split_ifs with hq1 hq2
      · rw [complementAux_cons, if_neg (by omega)]
        simp only [Atom.lo, Atom.hi]
        rw [if_neg (by omega), if_neg (by omega), if_neg (by omega), if_neg (by omega)]
        show Except.ok (UnicodeSubset.tailPiece (maxunicode + 1)) = .ok []
        unfold UnicodeSubset.tailPiece
        rw [if_neg (by omega), if_neg (by omega)]
      · rw [complementAux_cons, if_neg (by omega)]
        simp only [Atom.lo, Atom.hi]
        rw [if_neg (by omega), if_neg (by omega), if_neg (by omega), if_neg (by omega)]
        show Except.ok (UnicodeSubset.tailPiece (maxunicode + 1)) = .ok []
        unfold UnicodeSubset.tailPiece
        rw [if_neg (by omega), if_neg (by omega)]
      · show Except.ok (UnicodeSubset.tailPiece last) = .ok []
        unfold UnicodeSubset.tailPiece
        rw [if_neg (by omega), if_neg (by omega)]
  | cons a rest ih =>
      intro last h0 hasc hshape
      rcases hasc with ⟨h1, h2, h3, h4⟩
      have hsha : wideShape a := hshape a (List.mem_cons_self _ _)
      rw [coalGaps_cons]
      rcases eq_or_lt_of_le h3 with hmax | hlt
      · -- the atom reaches maxunicode: it must be the last one
        have hrest : rest = [] := by
          cases rest with
          | nil => rfl
          | cons b t =>
              rcases h4 with ⟨hb1, hb2, hb3, _⟩
              omega
        subst hrest
        rw [show coalGaps (a.hi + 1) [] = [] from by
          show UnicodeSubset.tailPiece (a.hi + 1) = []
          unfold UnicodeSubset.tailPiece
          rw [if_neg (by omega), if_neg (by omega)], List.append_nil]
        rcases (show a.lo - last = 0 ∨ 1 ≤ a.lo - last from by omega) with hw0 | hw1
        · rw [coalGapAtoms_zero last a.lo hw0]
          show Except.ok (UnicodeSubset.tailPiece last) = .ok [a]
          rw [show last = a.lo from by omega, tailPiece_eq_self hsha (by omega) h2]
        · rcases coalGapAtoms_pos last a.lo hw1 with ⟨x, hx, hxlo, hxhi⟩
          rw [hx]
          rw [complementAux_cons, if_neg (by omega)]
          simp only [hxlo, hxhi]
          rw [if_neg (by omega), if_neg (by omega), if_neg (by omega), if_neg (by omega)]
          show UnicodeSubset.complementAux (a.lo - 1 + 1) [] = .ok [a]
          rw [show a.lo - 1 + 1 = a.lo from by omega]
          show Except.ok (UnicodeSubset.tailPiece a.lo) = .ok [a]
          rw [tailPiece_eq_self hsha (by omega) h2]
      · -- the atom ends below maxunicode
        have hasc2 : ascFrom (a.hi + 1) rest := ascFrom_mono (by omega) h4
        have hrec0 := ih (a.hi + 1) (by omega) hasc2
          (fun b hb => hshape b (List.mem_cons_of_mem _ hb))
        have hgap2 : ∀ b ∈ rest.head?, a.hi + 1 < b.lo := by
          intro b hb
          have hbm : b ∈ rest := List.mem_of_mem_head? hb
          cases rest with
          | nil => cases hbm
          | cons c t =>
              rcases h4 with ⟨hc1, _, _, _⟩
              have hbc : c = b := by simpa using hb
              subst hbc
              omega
        rcases coalGaps_head_lo rest (a.hi + 1) hasc2 (by omega) hgap2
          with ⟨x, xs, hxeq, hxlo⟩
        rw [hxeq] at hrec0
        rw [complementAux_cons, if_neg (by omega)] at hrec0
        simp only [hxlo] at hrec0
        rw [if_neg (by omega), if_neg (by omega), if_neg (by omega), if_neg (by omega)]
          at hrec0
        -- hrec0 : complementAux (x.hi + 1) xs = .ok rest
        have hmain : UnicodeSubset.complementAux a.lo (x :: xs) = .ok (a :: rest) := by
          rw [complementAux_cons, if_neg (by omega)]
          cases a with
          | single cp =>
              simp only [Atom.lo, Atom.hi] at h2 hlt hxlo hrec0 ⊢
              simp only [hxlo]
              rw [if_neg (by omega), if_neg (by omega), if_pos (by omega), hrec0]
              rfl
          | range lo hi =>
              have hwide : lo + 2 ≤ hi := hsha
              simp only [Atom.lo, Atom.hi] at h2 hlt hxlo hrec0 ⊢
              simp only [hxlo]
              rw [if_pos (by omega), hrec0]
              show Except.ok (Atom.range lo (hi + 1 - 1) :: rest) = _
              rw [show hi + 1 - 1 = hi from by omega]
        rw [hxeq]
        rcases (show a.lo - last = 0 ∨ 1 ≤ a.lo - last from by omega) with hw0 | hw1
        · rw [coalGapAtoms_zero last a.lo hw0]
          show UnicodeSubset.complementAux last (x :: xs) = .ok (a :: rest)
          rw [show last = a.lo from by omega]
          exact hmain
        · rcases coalGapAtoms_pos last a.lo hw1 with ⟨y, hy, hylo, hyhi⟩
          rw [hy]
          show UnicodeSubset.complementAux last (y :: (x :: xs)) = .ok (a :: rest)
          rw [complementAux_cons, if_neg (by omega)]
          simp only [hylo, hyhi]
          rw [if_neg (by omega), if_neg (by omega), if_neg (by omega), if_neg (by omega)]
          show UnicodeSubset.complementAux (a.lo - 1 + 1) (x :: xs) = .ok (a :: rest)
          rw [show a.lo - 1 + 1 = a.lo from by omega]
          exact hmain

/-- **C3 (counterexample).** The subset `{(97, 98)}` satisfies the
ordering invariant, but complementing twice (building a `UnicodeSubset`
from `complement()` and complementing that) returns the two singleton
atoms `97, 98` — the same code points, but not the same atom sequence,
so `complement(complement(S)) == S` fails. -/
theorem complement_involution_counterexample :
    invariant [Atom.range 97 98]
    ∧ (UnicodeSubset.complement [Atom.range 97 98] >>= fun c =>
       UnicodeSubset.ofList c >>= fun t => UnicodeSubset.complement t)
        = .ok [Atom.single 97, Atom.single 98]
    ∧ [Atom.single 97, Atom.single 98] ≠ [Atom.range 97 98] :=
  ⟨by decide, by decide, by decide⟩

/-- **C3 (amended).** For every invariant subset whose range atoms span
at least three code points (singleton atoms unrestricted), building a
`UnicodeSubset` from `S.complement()` and complementing it again
returns exactly `S`'s atom sequence, raising no error.  (Two-wide runs
are the only shapes the double complement normalizes differently: a
two-wide range comes back as two singletons.) -/
theorem complement_involution_amended : ∀ (l : List Atom),
    invariant l → (∀ a ∈ l, wideShape a) →
    (UnicodeSubset.complement l >>= fun c =>
     UnicodeSubset.ofList c >>= fun t => UnicodeSubset.complement t) = .ok l := by
  intro l hinv hshape
  have hasc := invariant_ascFrom hinv
  rw [show UnicodeSubset.complement l = UnicodeSubset.complementAux 0 l from rfl,
    complementAux_eq_gaps l 0 hasc]
  show (UnicodeSubset.ofList (gaps 0 l) >>= fun t => UnicodeSubset.complement t) = .ok l
  have hof : UnicodeSubset.ofList (gaps 0 l) = .ok (coalGaps 0 l) := by
    show (iter_code_points (gaps 0 l) true).foldlM UnicodeSubset.add [] = _
    rw [iterRev_gaps l 0 hasc (le_refl 0)]
    rcases coalGaps_facts l 0 hasc (le_refl 0) with ⟨hbk, hord⟩
    rw [foldlM_add_desc ((coalGaps 0 l).reverse) []
      (fun x hx => (hbk x (List.mem_reverse.mp hx)).1)
      (List.chain'_reverse.mpr hord)
      (fun x _ b hb => absurd hb (List.not_mem_nil b))]
    rw [List.reverse_reverse, List.append_nil]
  rw [hof]
  show UnicodeSubset.complement (coalGaps 0 l) = .ok l
  exact complement_coalGaps l 0 (le_refl 0) hasc hshape

/-- Witness for C3 (amended): the subset `{5, (100, 200)}`. -/
theorem complement_involution_amended_witness :
    (UnicodeSubset.complement [Atom.single 5, Atom.range 100 200] >>= fun c =>
     UnicodeSubset.ofList c >>= fun t => UnicodeSubset.complement t)
      = .ok [Atom.single 5, Atom.range 100 200] :=
  complement_involution_amended [Atom.single 5, Atom.range 100 200] (by decide) (by decide)

/-! ## C6: the rendering round trip -/

/-- The shapes of atoms whose rendering parses back: genuine ranges
(`lo < hi`, matching the tuple invariant), with no endpoint at the
backslash character (92), which `code_point_repr` fails to escape (a
bare rendered backslash leaks an escape state into the next atom, or
turns a range start into the backslash itself). -/
def renderOK : Atom → Prop
  | .single c => c ≠ 92
  | .range lo hi => lo < hi ∧ lo ≠ 92 ∧ hi ≠ 92

instance : DecidablePred renderOK := fun a =>
  match a with
  | .single c => inferInstanceAs (Decidable (c ≠ 92))
  | .range lo hi => inferInstanceAs (Decidable (lo < hi ∧ lo ≠ 92 ∧ hi ≠ 92))

/-- The tokens `parse_character_group` emits for the rendering of one
atom at a position past 0: a wide range contributes its start (emitted
while scanning the start character) and the range; a two-wide range
contributes its two endpoint singletons. -/
def atomTokens : Atom → List Atom
  | .single c => [Atom.single c]
  | .range lo hi =>
      if hi > lo + 1 then [Atom.single lo, Atom.range lo hi]
      else [Atom.single lo, Atom.single hi]

/-- Token stream of the renderings of the atoms after the first. -/
def tokensBody (l : List Atom) : List Atom :=
  (l.map atomTokens).flatten

/-- The first atom parses specially: when a wide range renders with an
unescaped start character, position 0 defers the start emission (the
next character is a hyphen), so only the range token appears. -/
def firstAtomTokens : Atom → List Atom
  | .single c => [Atom.single c]
  | .range lo hi =>
      if lo ∈ CHARACTER_GROUP_ESCAPED then atomTokens (Atom.range lo hi)
      else if hi > lo + 1 then [Atom.range lo hi]
      else [Atom.single lo, Atom.single hi]

/-- The full token stream of a rendered subset. -/
def tokensOf : List Atom → List Atom
  | [] => []
  | a :: rest => firstAtomTokens a ++ tokensBody rest

theorem strRepr_nil : UnicodeSubset.strRepr [] = [] := rfl

theorem strRepr_cons (a : Atom) (l : List Atom) :
    UnicodeSubset.strRepr (a :: l) = code_point_repr a ++ UnicodeSubset.strRepr l := by
  unfold UnicodeSubset.strRepr
  rw [List.map_cons, List.flatten_cons]

theorem escChar_ne_nil (c : Int) : escChar c ≠ [] := by
  unfold escChar
  split_ifs <;> simp

theorem code_point_repr_ne_nil (a : Atom) : code_point_repr a ≠ [] := by
  cases a with
  | single c => exact escChar_ne_nil c
  | range lo hi =>
      show (if hi > lo + 1 then escChar lo ++ [45] ++ escChar hi
        else escChar lo ++ escChar hi) ≠ []
      split_ifs <;> simp [escChar_ne_nil]

/-- The first character of any rendering is never one of the escaped
metacharacters: those are always preceded by a backslash, and a bare
character is by construction outside the set. -/
theorem escChar_head_not_meta (c : Int) :
    ∀ m ∈ (escChar c).head?, m ∉ CHARACTER_GROUP_ESCAPED := by
  intro m hm
  unfold escChar at hm
  split_ifs at hm with h
  · have h92 : 92 = m := by simpa using hm
    subst h92
    decide
  · have hcm : c = m := by simpa using hm
    subst hcm
    exact h

theorem code_point_repr_head_not_meta (a : Atom) :
    ∀ m ∈ (code_point_repr a).head?, m ∉ CHARACTER_GROUP_ESCAPED := by
  intro m hm
  cases a with
  | single c => exact escChar_head_not_meta c m hm
  | range lo hi =>
      rw [show code_point_repr (Atom.range lo hi) =
        (if hi > lo + 1 then escChar lo ++ [45] ++ escChar hi
         else escChar lo ++ escChar hi) from rfl] at hm
      split_ifs at hm with h
      · refine escChar_head_not_meta lo m ?_
        rw [List.append_assoc, List.head?_append_of_ne_nil _ (escChar_ne_nil lo)] at hm
        exact hm
      · refine escChar_head_not_meta lo m ?_
        rw [List.head?_append_of_ne_nil _ (escChar_ne_nil lo)] at hm
        exact hm

theorem strRepr_head_not_meta (S : List Atom) :
    ∀ m ∈ (UnicodeSubset.strRepr S).head?, m ∉ CHARACTER_GROUP_ESCAPED := by
  intro m hm
  cases S with
  | nil => cases hm
  | cons a rest =>
      rw [strRepr_cons, List.head?_append_of_ne_nil _ (code_point_repr_ne_nil a)] at hm
      exact code_point_repr_head_not_meta a m hm

theorem except_map_map {α β γ : Type} (f : β → γ) (g : α → β)
    (e : Except XMLSchemaRegexError α) : f <$> (g <$> e) = (fun x => f (g x)) <$> e := by
  cases e <;> rfl

/-- Scanning one unescaped ordinary character (not a metacharacter, not
a backslash): a pending escape emits a literal backslash first. -/
theorem pcgLoop_bare (c : Int) (hc : c ∉ CHARACTER_GROUP_ESCAPED) (hc92 : ¬ c = 92)
    (R : List Int) (i : Nat) (esc : Bool) (ch : Int) :
    pcgLoop false (c :: R) i esc ch =
      (fun t => (if esc then [Atom.single 92] else []) ++ Atom.single c :: t) <$>
        pcgLoop false R (i + 1) false c := by
  have h45 : ¬ c = 45 := fun h => hc (h ▸ (by decide))
  have hmeta : ¬ c ∈ CLASS_METACHARS :=
    fun h => hc ((by decide : ∀ x ∈ CLASS_METACHARS, x ∈ CHARACTER_GROUP_ESCAPED) c h)
  have hbra : ¬ (c = 91 ∨ c = 93) := by
    rintro (h | h) <;> exact hc (h ▸ (by decide))
  conv_lhs => unfold pcgLoop
  rw [if_neg h45, if_neg hmeta, if_neg hbra, if_neg hc92]
  cases esc <;> simp

/-- Scanning one character of the escaped-metacharacter set while the
escape flag is set: the character is emitted literally. -/
theorem pcgLoop_afterEsc (c : Int) (hc : c ∈ CHARACTER_GROUP_ESCAPED)
    (R : List Int) (i : Nat) (ch : Int) :
    pcgLoop false (c :: R) i true ch =
      (fun t => Atom.single c :: t) <$> pcgLoop false R (i + 1) false c := by
  simp only [CHARACTER_GROUP_ESCAPED, List.mem_cons, List.not_mem_nil, or_false] at hc
  rcases hc with rfl | rfl | rfl | rfl | rfl | rfl | rfl | rfl | rfl | rfl | rfl | rfl | rfl
    <;> (conv_lhs => unfold pcgLoop) <;> simp [CLASS_METACHARS]

/-- Scanning an always-literal class metacharacter (`|.^?*+{}()`). -/
theorem pcgLoop_meta (c : Int) (hc : c ∈ CLASS_METACHARS)
    (R : List Int) (i : Nat) (esc : Bool) (ch : Int) :
    pcgLoop false (c :: R) i esc ch =
      (fun t => Atom.single c :: t) <$> pcgLoop false R (i + 1) false c := by
  simp only [CLASS_METACHARS, List.mem_cons, List.not_mem_nil, or_false] at hc
  rcases hc with rfl | rfl | rfl | rfl | rfl | rfl | rfl | rfl | rfl | rfl
    <;> (conv_lhs => unfold pcgLoop) <;> simp [CLASS_METACHARS]

/-- Scanning a backslash with no pending escape only sets the flag. -/
theorem pcgLoop_bslash (R : List Int) (i : Nat) (ch : Int) :
    pcgLoop false (92 :: R) i false ch = pcgLoop false R (i + 1) true ch := by
  conv_lhs => unfold pcgLoop
  simp [CLASS_METACHARS]

/-- An escaped-pair rendering `\c` starting with no pending escape
emits the literal character. -/
theorem pcgLoop_escStart (c : Int) (hc : c ∈ CHARACTER_GROUP_ESCAPED)
    (R : List Int) (i : Nat) (ch : Int) :
    pcgLoop false (92 :: c :: R) i false ch =
      (fun t => Atom.single c :: t) <$> pcgLoop false R (i + 2) false c := by
  rw [pcgLoop_bslash, pcgLoop_afterEsc c hc]

/-- An escaped-pair rendering `\c` for a class metacharacter scanned
with a pending escape: the pending backslash is emitted first. -/
theorem pcgLoop_escStart_pending (c : Int) (hc : c ∈ CLASS_METACHARS)
    (R : List Int) (i : Nat) (ch : Int) :
    pcgLoop false (92 :: c :: R) i true ch =
      (fun t => Atom.single 92 :: Atom.single c :: t) <$> pcgLoop false R (i + 2) false c := by
  have h1 : pcgLoop false (92 :: c :: R) i true ch =
      (fun t => Atom.single 92 :: t) <$> pcgLoop false (c :: R) (i + 1) false 92 := by
    conv_lhs => unfold pcgLoop
    simp [CLASS_METACHARS]
  rw [h1, pcgLoop_meta c hc, except_map_map]

/-- Scanning the hyphen of a wide range rendering with the range start
in `ch`: the end character (possibly escaped) is consumed and the range
token is emitted. -/
theorem pcgLoop_range (lo hi : Int) (R : List Int) (i : Nat)
    (hlh : lo ≤ hi) (hR : ∀ m ∈ R.head?, m ∉ CHARACTER_GROUP_ESCAPED) :
    pcgLoop false (45 :: (escChar hi ++ R)) i false lo =
      (fun t => Atom.range lo hi :: t) <$>
        pcgLoop false R (i + 1 + (escChar hi).length) false lo := by
  have hno : ¬ lo > hi := by omega
  by_cases hhi : hi ∈ CHARACTER_GROUP_ESCAPED
  · rw [show escChar hi = [92, hi] from by unfold escChar; rw [if_pos hhi]]
    rw [show ([92, hi] ++ R : List Int) = 92 :: hi :: R from rfl]
    conv_lhs => unfold pcgLoop
    simp [hhi, hno]
  · rw [show escChar hi = [hi] from by unfold escChar; rw [if_neg hhi]]
    rcases R with _ | ⟨m, rest3⟩
    · conv_lhs => unfold pcgLoop
      simp [hno]
    · have hm : m ∉ CHARACTER_GROUP_ESCAPED := hR m rfl
      rw [show ([hi] ++ (m :: rest3) : List Int) = hi :: m :: rest3 from rfl]
      conv_lhs => unfold pcgLoop
      simp [hm, hno]

/-- The scanner on an exhausted body with no pending escape. -/
theorem pcgLoop_nil (i : Nat) (ch : Int) :
    pcgLoop false [] i false ch = .ok [] := by
  conv_lhs => unfold pcgLoop
  simp

/-- Scanning the rendering of one non-backslash code point emits its
singleton token and leaves the scanner clean with `char` updated. -/
theorem escChar_step (c : Int) (hc : c ≠ 92) (R : List Int) (i : Nat) (ch : Int) :
    pcgLoop false (escChar c ++ R) i false ch =
      (fun t => Atom.single c :: t) <$> pcgLoop false R (i + (escChar c).length) false c := by
  by_cases h : c ∈ CHARACTER_GROUP_ESCAPED
  · rw [show escChar c = [92, c] from by unfold escChar; rw [if_pos h]]
    rw [show ([92, c] ++ R : List Int) = 92 :: c :: R from rfl]
    rw [pcgLoop_escStart c h R i ch]
    rfl
  · rw [show escChar c = [c] from by unfold escChar; rw [if_neg h]]
    rw [show ([c] ++ R : List Int) = c :: R from rfl]
    rw [pcgLoop_bare c h hc R i false ch]
    simp

/-- Scanning the rendering of one well-shaped atom from a clean state
emits exactly its token block, no matter what follows, provided the
remainder does not begin with a character of the escaped set. -/
theorem pcgLoop_atom (a : Atom) (ha : renderOK a) (R : List Int)
    (hR : ∀ m ∈ R.head?, m ∉ CHARACTER_GROUP_ESCAPED) (i : Nat) (ch : Int) :
    ∃ j ch2, pcgLoop false (code_point_repr a ++ R) i false ch =
      (fun t => atomTokens a ++ t) <$> pcgLoop false R j false ch2 := by
  cases a with
  | single c =>
      rw [show code_point_repr (Atom.single c) = escChar c from rfl,
        escChar_step c ha R i ch]
      exact ⟨_, _, rfl⟩
  | range lo hi =>
      rcases ha with ⟨hlh, hlo92, hhi92⟩
      by_cases hwide : hi > lo + 1
      · rw [show code_point_repr (Atom.range lo hi) = escChar lo ++ [45] ++ escChar hi from by
          show (if hi > lo + 1 then escChar lo ++ [45] ++ escChar hi
            else escChar lo ++ escChar hi) = _
          rw [if_pos hwide]]
        rw [List.append_assoc, List.append_assoc,
          show ([45] ++ (escChar hi ++ R) : List Int) = 45 :: (escChar hi ++ R) from rfl,
          escChar_step lo hlo92 _ i ch,
          pcgLoop_range lo hi R _ (le_of_lt hlh) hR,
          except_map_map,
          show atomTokens (Atom.range lo hi) = [Atom.single lo, Atom.range lo hi] from by
            show (if hi > lo + 1 then [Atom.single lo, Atom.range lo hi]
              else [Atom.single lo, Atom.single hi]) = [Atom.single lo, Atom.range lo hi]
            rw [if_pos hwide]]
        exact ⟨_, _, rfl⟩
      · rw [show code_point_repr (Atom.range lo hi) = escChar lo ++ escChar hi from by
          show (if hi > lo + 1 then escChar lo ++ [45] ++ escChar hi
            else escChar lo ++ escChar hi) = _
          rw [if_neg hwide]]
        rw [List.append_assoc,
          escChar_step lo hlo92 _ i ch,
          escChar_step hi hhi92 R _ lo,
          except_map_map,
          show atomTokens (Atom.range lo hi) = [Atom.single lo, Atom.single hi] from by
            show (if hi > lo + 1 then [Atom.single lo, Atom.range lo hi]
              else [Atom.single lo, Atom.single hi]) = [Atom.single lo, Atom.single hi]
            rw [if_neg hwide]]
        exact ⟨_, _, rfl⟩

theorem tokensBody_cons (a : Atom) (l : List Atom) :
    tokensBody (a :: l) = atomTokens a ++ tokensBody l := by
  unfold tokensBody
  rw [List.map_cons, List.flatten_cons]

/-- Scanning the renderings of a list of well-shaped atoms from a clean
state yields exactly the concatenation of their token blocks. -/
theorem pcgLoop_render : ∀ (S : List Atom), (∀ a ∈ S, renderOK a) →
    ∀ (i : Nat) (ch : Int),
    pcgLoop false (UnicodeSubset.strRepr S) i false ch = .ok (tokensBody S) := by
  intro S
  induction S with
  | nil => intro _ i ch; exact pcgLoop_nil i ch
  | cons a rest ih =>
      intro hS i ch
      rw [strRepr_cons]
      obtain ⟨j, ch2, heq⟩ := pcgLoop_atom a (hS a (List.mem_cons_self _ _))
        (UnicodeSubset.strRepr rest) (strRepr_head_not_meta rest) i ch
      rw [heq, ih (fun x hx => hS x (List.mem_cons_of_mem _ hx)) j ch2, tokensBody_cons]
      rfl

/-- Position 0 on a body starting with a backslash: the scanner starts
with a pending escape. -/
theorem parse_cons_esc (L : List Int) :
    parse_character_group (92 :: L) false = pcgLoop false L 1 true 92 := by
  unfold parse_character_group
  simp

/-- Position 0 on an ordinary first character not followed by a hyphen:
its token is emitted and the scanner takes over. -/
theorem parse_cons_plain (c : Int) (L : List Int) (hc92 : ¬ c = 92)
    (hbra : ¬ (c = 91 ∨ c = 93)) (h45 : ∀ m ∈ L.head?, ¬ m = 45) :
    parse_character_group (c :: L) false =
      (fun u => Atom.single c :: u) <$> pcgLoop false L 1 false c := by
  unfold parse_character_group
  rcases L with _ | ⟨y, _ | ⟨z, t⟩⟩
  · simp [hc92, hbra]
  · simp [hc92, hbra]
  · have hy : ¬ y = 45 := h45 y rfl
    simp [hc92, hbra, hy]

/-- Position 0 on an ordinary first character followed by a hyphen: the
emission is deferred to the range lookahead of the scanner. -/
theorem parse_cons_defer (c z : Int) (t : List Int) (hc92 : ¬ c = 92)
    (hbra : ¬ (c = 91 ∨ c = 93)) :
    parse_character_group (c :: 45 :: z :: t) false =
      pcgLoop false (45 :: z :: t) 1 false c := by
  unfold parse_character_group
  simp [hc92, hbra]

/-- Parsing the full rendering of a list of well-shaped atoms produces
exactly its token stream, with the first atom's special position-0
handling. -/
theorem parse_render (S : List Atom) (hS : ∀ a ∈ S, renderOK a) :
    parse_character_group (UnicodeSubset.strRepr S) false = .ok (tokensOf S) := by
  cases S with
  | nil => rfl
  | cons a rest =>
      have ha := hS a (List.mem_cons_self _ _)
      have hrest : ∀ x ∈ rest, renderOK x := fun x hx => hS x (List.mem_cons_of_mem _ hx)
      rw [strRepr_cons]
      cases a with
      | single c =>
          have hc92 : ¬ c = 92 := ha
          by_cases hc : c ∈ CHARACTER_GROUP_ESCAPED
          · rw [show code_point_repr (Atom.single c) = escChar c from rfl,
              show escChar c = [92, c] from by unfold escChar; rw [if_pos hc],
              show (([92, c] : List Int) ++ UnicodeSubset.strRepr rest)
                = 92 :: c :: UnicodeSubset.strRepr rest from rfl,
              parse_cons_esc, pcgLoop_afterEsc c hc, pcgLoop_render rest hrest]
            rfl
          · have hbra : ¬ (c = 91 ∨ c = 93) := by
              rintro (rfl | rfl) <;> exact hc (by decide)
            rw [show code_point_repr (Atom.single c) = escChar c from rfl,
              show escChar c = [c] from by unfold escChar; rw [if_neg hc],
              show (([c] : List Int) ++ UnicodeSubset.strRepr rest)
                = c :: UnicodeSubset.strRepr rest from rfl,
              parse_cons_plain c _ hc92 hbra
                (fun m hm h45 => strRepr_head_not_meta rest m hm (by rw [h45]; decide)),
              pcgLoop_render rest hrest]
            rfl
      | range lo hi =>
          rcases ha with ⟨hlh, hlo92, hhi92⟩
          have hhead : ∀ m ∈ (escChar hi ++ UnicodeSubset.strRepr rest).head?,
              m ∉ CHARACTER_GROUP_ESCAPED := by
            intro m hm
            rw [List.head?_append_of_ne_nil _ (escChar_ne_nil hi)] at hm
            exact escChar_head_not_meta hi m hm
          by_cases hwide : hi > lo + 1
          · rw [show code_point_repr (Atom.range lo hi)
                = escChar lo ++ [45] ++ escChar hi from by
              show (if hi > lo + 1 then escChar lo ++ [45] ++ escChar hi
                else escChar lo ++ escChar hi) = _
              rw [if_pos hwide]]
            by_cases hlo : lo ∈ CHARACTER_GROUP_ESCAPED
            · rw [show escChar lo = [92, lo] from by unfold escChar; rw [if_pos hlo],
                List.append_assoc, List.append_assoc,
                show (([92, lo] : List Int) ++
                    ([45] ++ (escChar hi ++ UnicodeSubset.strRepr rest)))
                  = 92 :: lo :: 45 :: (escChar hi ++ UnicodeSubset.strRepr rest) from rfl,
                parse_cons_esc, pcgLoop_afterEsc lo hlo,
                pcgLoop_range lo hi _ _ (le_of_lt hlh) (strRepr_head_not_meta rest),
                except_map_map, pcgLoop_render rest hrest]
              simp [tokensOf, firstAtomTokens, atomTokens, hlo, hwide]
            · have hbra : ¬ (lo = 91 ∨ lo = 93) := by
                rintro (rfl | rfl) <;> exact hlo (by decide)
              obtain ⟨z, t, hzt⟩ := List.exists_cons_of_ne_nil
                (List.append_ne_nil_of_left_ne_nil (escChar_ne_nil hi) _)
              rw [show escChar lo = [lo] from by unfold escChar; rw [if_neg hlo],
                List.append_assoc, List.append_assoc,
                show (([lo] : List Int) ++
                    ([45] ++ (escChar hi ++ UnicodeSubset.strRepr rest)))
                  = lo :: 45 :: (escChar hi ++ UnicodeSubset.strRepr rest) from rfl,
                hzt, parse_cons_defer lo z t hlo92 hbra, ← hzt,
                pcgLoop_range lo hi _ _ (le_of_lt hlh) (strRepr_head_not_meta rest),
                pcgLoop_render rest hrest]
              simp [tokensOf, firstAtomTokens, hlo, hwide]
          · rw [show code_point_repr (Atom.range lo hi) = escChar lo ++ escChar hi from by
              show (if hi > lo + 1 then escChar lo ++ [45] ++ escChar hi
                else escChar lo ++ escChar hi) = _
              rw [if_neg hwide]]
            by_cases hlo : lo ∈ CHARACTER_GROUP_ESCAPED
            · rw [show escChar lo = [92, lo] from by unfold escChar; rw [if_pos hlo],
                List.append_assoc,
                show (([92, lo] : List Int) ++ (escChar hi ++ UnicodeSubset.strRepr rest))
                  = 92 :: lo :: (escChar hi ++ UnicodeSubset.strRepr rest) from rfl,
                parse_cons_esc, pcgLoop_afterEsc lo hlo,
                escChar_step hi hhi92, except_map_map, pcgLoop_render rest hrest]
              simp [tokensOf, firstAtomTokens, atomTokens, hlo, hwide]
            · have hbra : ¬ (lo = 91 ∨ lo = 93) := by
                rintro (rfl | rfl) <;> exact hlo (by decide)
              rw [show escChar lo = [lo] from by unfold escChar; rw [if_neg hlo],
                List.append_assoc,
                show (([lo] : List Int) ++ (escChar hi ++ UnicodeSubset.strRepr rest))
                  = lo :: (escChar hi ++ UnicodeSubset.strRepr rest) from rfl,
                parse_cons_plain lo _ hlo92 hbra
                  (fun m hm h45 => hhead m hm (by rw [h45]; decide)),
                escChar_step hi hhi92, except_map_map, pcgLoop_render rest hrest]
              simp [tokensOf, firstAtomTokens, hlo, hwide]

theorem renderOK_le (a : Atom) (ha : renderOK a) : a.lo ≤ a.hi := by
  cases a with
  | single c => exact le_refl c
  | range lo hi => exact le_of_lt ha.1

/-- Every token of an atom's block stays inside the atom's span. -/
theorem atomTokens_bounds (a : Atom) (ha : renderOK a) :
    ∀ t ∈ atomTokens a, a.lo ≤ t.lo ∧ t.lo ≤ t.hi ∧ t.hi ≤ a.hi := by
  cases a with
  | single c =>
      intro t ht
      have hts : t = Atom.single c := by simpa [atomTokens] using ht
      subst hts
      exact ⟨le_refl c, le_refl c, le_refl c⟩
  | range lo hi =>
      intro t ht
      have hlh : lo < hi := ha.1
      rw [show atomTokens (Atom.range lo hi) =
        (if hi > lo + 1 then [Atom.single lo, Atom.range lo hi]
         else [Atom.single lo, Atom.single hi]) from rfl] at ht
      split_ifs at ht with hw
      · rcases List.mem_cons.mp ht with rfl | ht2
        · exact ⟨le_refl lo, le_refl lo, le_of_lt hlh⟩
        · have hts : t = Atom.range lo hi := by simpa using ht2
          subst hts
          exact ⟨le_refl lo, le_of_lt hlh, le_refl hi⟩
      · rcases List.mem_cons.mp ht with rfl | ht2
        · exact ⟨le_refl lo, le_refl lo, le_of_lt hlh⟩
        · have hts : t = Atom.single hi := by simpa using ht2
          subst hts
          exact ⟨le_of_lt hlh, le_refl hi, le_refl hi⟩

/-- The tokens of one atom's block have strictly ascending ends. -/
theorem atomTokens_pairwise (a : Atom) (ha : renderOK a) :
    List.Pairwise (fun x y => x.hi < y.hi) (atomTokens a) := by
  cases a with
  | single c => exact List.pairwise_singleton _ _
  | range lo hi =>
      have hlh : lo < hi := ha.1
      rw [show atomTokens (Atom.range lo hi) =
        (if hi > lo + 1 then [Atom.single lo, Atom.range lo hi]
         else [Atom.single lo, Atom.single hi]) from rfl]
      split_ifs with hw
      · refine List.pairwise_cons.mpr ⟨?_, List.pairwise_singleton _ _⟩
        intro y hy
        have hys : y = Atom.range lo hi := by simpa using hy
        subst hys
        exact hlh
      · refine List.pairwise_cons.mpr ⟨?_, List.pairwise_singleton _ _⟩
        intro y hy
        have hys : y = Atom.single hi := by simpa using hy
        subst hys
        exact hlh

/-- Every token of the first atom's block stays inside the atom's span. -/
theorem firstAtomTokens_bounds (a : Atom) (ha : renderOK a) :
    ∀ t ∈ firstAtomTokens a, a.lo ≤ t.lo ∧ t.lo ≤ t.hi ∧ t.hi ≤ a.hi := by
  cases a with
  | single c =>
      intro t ht
      have hts : t = Atom.single c := by simpa [firstAtomTokens] using ht
      subst hts
      exact ⟨le_refl c, le_refl c, le_refl c⟩
  | range lo hi =>
      intro t ht
      have hlh : lo < hi := ha.1
      rw [show firstAtomTokens (Atom.range lo hi) =
        (if lo ∈ CHARACTER_GROUP_ESCAPED then atomTokens (Atom.range lo hi)
         else if hi > lo + 1 then [Atom.range lo hi]
         else [Atom.single lo, Atom.single hi]) from rfl] at ht
      split_ifs at ht with h1 h2
      · exact atomTokens_bounds _ ha t ht
      · have hts : t = Atom.range lo hi := by simpa using ht
        subst hts
        exact ⟨le_refl lo, le_of_lt hlh, le_refl hi⟩
      · rcases List.mem_cons.mp ht with rfl | ht2
        · exact ⟨le_refl lo, le_refl lo, le_of_lt hlh⟩
        · have hts : t = Atom.single hi := by simpa using ht2
          subst hts
          exact ⟨le_of_lt hlh, le_refl hi, le_refl hi⟩

/-- The tokens of the first atom's block have strictly ascending ends. -/
theorem firstAtomTokens_pairwise (a : Atom) (ha : renderOK a) :
    List.Pairwise (fun x y => x.hi < y.hi) (firstAtomTokens a) := by
  cases a with
  | single c => exact List.pairwise_singleton _ _
  | range lo hi =>
      have hlh : lo < hi := ha.1
      rw [show firstAtomTokens (Atom.range lo hi) =
        (if lo ∈ CHARACTER_GROUP_ESCAPED then atomTokens (Atom.range lo hi)
         else if hi > lo + 1 then [Atom.range lo hi]
         else [Atom.single lo, Atom.single hi]) from rfl]
      split_ifs with h1 h2
      · exact atomTokens_pairwise _ ha
      · exact List.pairwise_singleton _ _
      · refine List.pairwise_cons.mpr ⟨?_, List.pairwise_singleton _ _⟩
        intro y hy
        have hys : y = Atom.single hi := by simpa using hy
        subst hys
        exact hlh

/-- In an ordered list of well-shaped atoms, the head precedes every
later atom with a gap. -/
theorem ordered_rest_sep : ∀ (S : List Atom) (a : Atom), (∀ x ∈ S, renderOK x) →
    ordered (a :: S) → ∀ b ∈ S, a.hi + 1 < b.lo := by
  intro S
  induction S with
  | nil => intro a _ _ b hb; cases hb
  | cons c t ih =>
      intro a hok hord b hb
      have hac : sepOK a c := (List.chain'_cons.mp hord).1
      rcases List.mem_cons.mp hb with rfl | hbt
      · exact hac
      · have hcb := ih c (fun x hx => hok x (List.mem_cons_of_mem _ hx))
          (List.chain'_cons.mp hord).2 b hbt
        have hcle := renderOK_le c (hok c (List.mem_cons_self _ _))
        unfold sepOK at hac
        omega

/-- Token stream of a rendered body: strictly ascending ends, every
token inside the span of some source atom. -/
theorem tokensBody_facts : ∀ (S : List Atom), (∀ a ∈ S, renderOK a) → ordered S →
    List.Pairwise (fun x y => x.hi < y.hi) (tokensBody S) ∧
      ∀ t ∈ tokensBody S, ∃ b ∈ S, b.lo ≤ t.lo ∧ t.lo ≤ t.hi ∧ t.hi ≤ b.hi := by
  intro S
  induction S with
  | nil =>
      intro _ _
      refine ⟨by rw [show tokensBody [] = ([] : List Atom) from rfl]; exact List.Pairwise.nil, ?_⟩
      intro t ht
      rw [show tokensBody [] = ([] : List Atom) from rfl] at ht
      cases ht
  | cons a rest ih =>
      intro hok hord
      have ha := hok a (List.mem_cons_self _ _)
      have hrest : ∀ x ∈ rest, renderOK x := fun x hx => hok x (List.mem_cons_of_mem _ hx)
      obtain ⟨ihp, ihb⟩ := ih hrest hord.tail
      have hsep := ordered_rest_sep rest a hrest hord
      rw [tokensBody_cons]
      constructor
      · refine List.pairwise_append.mpr ⟨atomTokens_pairwise a ha, ihp, ?_⟩
        intro x hx y hy
        obtain ⟨hx1, hx2, hx3⟩ := atomTokens_bounds a ha x hx
        obtain ⟨b, hbmem, hb1, hb2, hb3⟩ := ihb y hy
        have := hsep b hbmem
        omega
      · intro t ht
        rcases List.mem_append.mp ht with h1 | h2
        · obtain ⟨h1a, h1b, h1c⟩ := atomTokens_bounds a ha t h1
          exact ⟨a, List.mem_cons_self _ _, h1a, h1b, h1c⟩
        · obtain ⟨b, hbmem, hb⟩ := ihb t h2
          exact ⟨b, List.mem_cons_of_mem _ hbmem, hb⟩

/-- The full token stream of a rendered subset has strictly ascending
ends, so the reverse-mode sort of the rebuild just reverses it. -/
theorem tokensOf_pairwise (S : List Atom) (hok : ∀ a ∈ S, renderOK a) (hord : ordered S) :
    List.Pairwise (fun x y => x.hi < y.hi) (tokensOf S) := by
  cases S with
  | nil => exact List.Pairwise.nil
  | cons a rest =>
      have ha := hok a (List.mem_cons_self _ _)
      have hrest : ∀ x ∈ rest, renderOK x := fun x hx => hok x (List.mem_cons_of_mem _ hx)
      obtain ⟨ihp, ihb⟩ := tokensBody_facts rest hrest hord.tail
      have hsep := ordered_rest_sep rest a hrest hord
      rw [show tokensOf (a :: rest) = firstAtomTokens a ++ tokensBody rest from rfl]
      refine List.pairwise_append.mpr ⟨firstAtomTokens_pairwise a ha, ihp, ?_⟩
      intro x hx y hy
      obtain ⟨hx1, hx2, hx3⟩ := firstAtomTokens_bounds a ha x hx
      obtain ⟨b, hbmem, hb1, hb2, hb3⟩ := ihb y hy
      have := hsep b hbmem
      omega

/-- The reverse merge loop folds one reversed token block back into its
source atom (the start singleton merges into the range's pending run). -/
theorem revGo_tokenBlock (a : Atom) (ha : renderOK a) (Z : List Atom)
    (hZ : ∀ z ∈ Z, z.hi + 1 < a.lo) :
    revGo none ((atomTokens a).reverse ++ Z) = a :: revGo none Z := by
  have hZh : ∀ (ps : Int), a.lo ≤ ps → ∀ z ∈ Z.head?, ps - 1 > z.hi := by
    intro ps hp z hz
    have := hZ z (List.mem_of_mem_head? hz)
    omega
  cases a with
  | single c =>
      show revGo none (Atom.single c :: Z) = Atom.single c :: revGo none Z
      rw [show revGo none (Atom.single c :: Z) = revGo (some (c, c)) Z from rfl,
        revGo_flush c c Z (hZh c (le_refl _)),
        show flushAtom c c = Atom.single c from by unfold flushAtom; rw [if_neg (by omega)]]
  | range lo hi =>
      have hlh : lo < hi := ha.1
      by_cases hw : hi > lo + 1
      · rw [show atomTokens (Atom.range lo hi) = [Atom.single lo, Atom.range lo hi] from by
          show (if hi > lo + 1 then [Atom.single lo, Atom.range lo hi]
            else [Atom.single lo, Atom.single hi]) = [Atom.single lo, Atom.range lo hi]
          rw [if_pos hw]]
        rw [show ([Atom.single lo, Atom.range lo hi].reverse ++ Z)
            = Atom.range lo hi :: Atom.single lo :: Z from rfl,
          show revGo none (Atom.range lo hi :: Atom.single lo :: Z)
            = revGo (some (lo, hi)) (Atom.single lo :: Z) from rfl,
          show revGo (some (lo, hi)) (Atom.single lo :: Z)
            = (if lo - 1 ≤ (Atom.single lo).hi then
                revGo (some (min lo (Atom.single lo).lo, hi)) Z
               else flushAtom lo hi ::
                revGo (some ((Atom.single lo).lo, (Atom.single lo).hi)) Z) from rfl,
          if_pos (by show lo - 1 ≤ lo; omega),
          show min lo (Atom.single lo).lo = lo from by show min lo lo = lo; omega,
          revGo_flush lo hi Z (hZh lo (le_refl _)),
          show flushAtom lo hi = Atom.range lo hi from by
            unfold flushAtom; rw [if_pos (by omega)]]
      · rw [show atomTokens (Atom.range lo hi) = [Atom.single lo, Atom.single hi] from by
          show (if hi > lo + 1 then [Atom.single lo, Atom.range lo hi]
            else [Atom.single lo, Atom.single hi]) = [Atom.single lo, Atom.single hi]
          rw [if_neg hw]]
        rw [show ([Atom.single lo, Atom.single hi].reverse ++ Z)
            = Atom.single hi :: Atom.single lo :: Z from rfl,
          show revGo none (Atom.single hi :: Atom.single lo :: Z)
            = revGo (some (hi, hi)) (Atom.single lo :: Z) from rfl,
          show revGo (some (hi, hi)) (Atom.single lo :: Z)
            = (if hi - 1 ≤ (Atom.single lo).hi then
                revGo (some (min hi (Atom.single lo).lo, hi)) Z
               else flushAtom hi hi ::
                revGo (some ((Atom.single lo).lo, (Atom.single lo).hi)) Z) from rfl,
          if_pos (by show hi - 1 ≤ lo; omega),
          show min hi (Atom.single lo).lo = lo from by show min hi lo = lo; omega,
          revGo_flush lo hi Z (hZh lo (le_refl _)),
          show flushAtom lo hi = Atom.range lo hi from by
            unfold flushAtom; rw [if_pos (by omega)]]

/-- The reverse merge loop folds the reversed first-position token block
back into its source atom. -/
theorem revGo_firstBlock (a : Atom) (ha : renderOK a) (Z : List Atom)
    (hZ : ∀ z ∈ Z, z.hi + 1 < a.lo) :
    revGo none ((firstAtomTokens a).reverse ++ Z) = a :: revGo none Z := by
  have hZh : ∀ (ps : Int), a.lo ≤ ps → ∀ z ∈ Z.head?, ps - 1 > z.hi := by
    intro ps hp z hz
    have := hZ z (List.mem_of_mem_head? hz)
    omega
  cases a with
  | single c => exact revGo_tokenBlock (Atom.single c) ha Z hZ
  | range lo hi =>
      have hlh : lo < hi := ha.1
      by_cases h1 : lo ∈ CHARACTER_GROUP_ESCAPED
      · rw [show firstAtomTokens (Atom.range lo hi) = atomTokens (Atom.range lo hi) from by
          show (if lo ∈ CHARACTER_GROUP_ESCAPED then atomTokens (Atom.range lo hi)
            else if hi > lo + 1 then [Atom.range lo hi]
            else [Atom.single lo, Atom.single hi]) = atomTokens (Atom.range lo hi)
          rw [if_pos h1]]
        exact revGo_tokenBlock _ ha Z hZ
      · by_cases hw : hi > lo + 1
        · rw [show firstAtomTokens (Atom.range lo hi) = [Atom.range lo hi] from by
            show (if lo ∈ CHARACTER_GROUP_ESCAPED then atomTokens (Atom.range lo hi)
              else if hi > lo + 1 then [Atom.range lo hi]
              else [Atom.single lo, Atom.single hi]) = [Atom.range lo hi]
            rw [if_neg h1, if_pos hw]]
          rw [show ([Atom.range lo hi].reverse ++ Z) = Atom.range lo hi :: Z from rfl,
            show revGo none (Atom.range lo hi :: Z) = revGo (some (lo, hi)) Z from rfl,
            revGo_flush lo hi Z (hZh lo (le_refl _)),
            show flushAtom lo hi = Atom.range lo hi from by
              unfold flushAtom; rw [if_pos (by omega)]]
        · rw [show firstAtomTokens (Atom.range lo hi) = atomTokens (Atom.range lo hi) from by
            show (if lo ∈ CHARACTER_GROUP_ESCAPED then atomTokens (Atom.range lo hi)
              else if hi > lo + 1 then [Atom.range lo hi]
              else [Atom.single lo, Atom.single hi]) =
              (if hi > lo + 1 then [Atom.single lo, Atom.range lo hi]
               else [Atom.single lo, Atom.single hi])
            rw [if_neg h1, if_neg hw, if_neg hw]]
          exact revGo_tokenBlock _ ha Z hZ

/-- The reverse merge loop on the reversed body token stream rebuilds
the source atoms in descending order. -/
theorem revGo_tokensBody : ∀ (S : List Atom) (Z : List Atom),
    (∀ a ∈ S, renderOK a) → ordered S →
    (∀ z ∈ Z, ∀ b ∈ S.head?, z.hi + 1 < b.lo) →
    revGo none ((tokensBody S).reverse ++ Z) = S.reverse ++ revGo none Z := by
  intro S
  induction S with
  | nil =>
      intro Z _ _ _
      rw [show tokensBody [] = ([] : List Atom) from rfl]
      simp
  | cons a rest ih =>
      intro Z hok hord hZ
      have ha := hok a (List.mem_cons_self _ _)
      have hrest : ∀ x ∈ rest, renderOK x := fun x hx => hok x (List.mem_cons_of_mem _ hx)
      have haZ : ∀ z ∈ Z, z.hi + 1 < a.lo := fun z hz => hZ z hz a rfl
      have hle := renderOK_le a ha
      have hcond : ∀ z ∈ (atomTokens a).reverse ++ Z, ∀ b ∈ rest.head?, z.hi + 1 < b.lo := by
        intro z hz b hb
        have hsep := ordered_rest_sep rest a hrest hord b (List.mem_of_mem_head? hb)
        rcases List.mem_append.mp hz with h1 | h2
        · obtain ⟨_, _, h3⟩ := atomTokens_bounds a ha z (List.mem_reverse.mp h1)
          omega
        · have := haZ z h2
          omega
      rw [tokensBody_cons, List.reverse_append, List.append_assoc,
        ih ((atomTokens a).reverse ++ Z) hrest hord.tail hcond,
        revGo_tokenBlock a ha Z haZ, List.reverse_cons, List.append_assoc]
      rfl

/-- Reverse-mode `iter_code_points` of the full token stream returns the
source atoms in descending order. -/
theorem iterRev_tokens (S : List Atom) (hok : ∀ a ∈ S, renderOK a) (hord : ordered S) :
    iter_code_points (tokensOf S) true = S.reverse := by
  rw [show iter_code_points (tokensOf S) true = revGo none (sortDesc (tokensOf S)) from rfl,
    sortDesc_eq_reverse _ (tokensOf_pairwise S hok hord)]
  cases S with
  | nil => rfl
  | cons a rest =>
      have ha := hok a (List.mem_cons_self _ _)
      have hrest : ∀ x ∈ rest, renderOK x := fun x hx => hok x (List.mem_cons_of_mem _ hx)
      have hcond : ∀ z ∈ (firstAtomTokens a).reverse, ∀ b ∈ rest.head?, z.hi + 1 < b.lo := by
        intro z hz b hb
        obtain ⟨_, _, h3⟩ := firstAtomTokens_bounds a ha z (List.mem_reverse.mp hz)
        have hsep := ordered_rest_sep rest a hrest hord b (List.mem_of_mem_head? hb)
        omega
      rw [show tokensOf (a :: rest) = firstAtomTokens a ++ tokensBody rest from rfl,
        List.reverse_append,
        revGo_tokensBody rest _ hrest hord.tail hcond,
        ← List.append_nil ((firstAtomTokens a).reverse),
        revGo_firstBlock a ha [] (fun z hz => absurd hz (List.not_mem_nil z)),
        List.reverse_cons]
      rfl

/-- `UnicodeSubset(parse_character_group(str(subset)))`: render the atom
list, re-parse it in non-expand mode and rebuild a subset from the
tokens; `none` when either stage raises. -/
def renderRoundTrip (S : List Atom) : Option (List Atom) :=
  (parse_character_group (UnicodeSubset.strRepr S) false).toOption.bind
    (fun toks => (UnicodeSubset.ofList toks).toOption)

/-- **C6 (counterexample).** The subset `{(92, 94)}` satisfies the
ordering invariant, but its rendering `\-\^` (the backslash start is
emitted bare, because 92 is not in the escaped set) parses back as the
literal hyphen and caret: the rebuilt subset is `{45, 94}`, not
`{(92, 94)}`, so the round trip changes the atom sequence. -/
theorem render_round_trip_counterexample :
    invariant [Atom.range 92 94]
    ∧ renderRoundTrip [Atom.range 92 94] = some [Atom.single 45, Atom.single 94]
    ∧ [Atom.single 45, Atom.single 94] ≠ [Atom.range 92 94] :=
  ⟨by decide, by decide, by decide⟩

/-- **C6 (amended).** For every invariant subset whose atoms are genuine
ranges or singletons with no endpoint at the backslash code point 92,
rendering with `code_point_repr`, re-parsing with
`parse_character_group` and rebuilding a `UnicodeSubset` from the tokens
returns exactly the original atom sequence, raising no error. -/
theorem render_round_trip_amended (S : List Atom) (hinv : invariant S)
    (hok : ∀ a ∈ S, renderOK a) :
    renderRoundTrip S = some S := by
  have hof : UnicodeSubset.ofList (tokensOf S) = .ok S := by
    show (iter_code_points (tokensOf S) true).foldlM UnicodeSubset.add [] = _
    rw [iterRev_tokens S hok hinv.2,
      foldlM_add_desc (S.reverse) []
        (fun x hx => hinv.1 x (List.mem_reverse.mp hx))
        (List.chain'_reverse.mpr hinv.2)
        (fun x _ b hb => absurd hb (List.not_mem_nil b)),
      List.reverse_reverse, List.append_nil]
  unfold renderRoundTrip
  rw [parse_render S hok]
  show (UnicodeSubset.ofList (tokensOf S)).toOption = some S
  rw [hof]
  rfl

/-- Witness for C6 (amended): the subset `{45, 97, (100, 110), (120, 121)}`
(an escaped singleton, a plain singleton, a wide range and a two-wide
range). -/
theorem render_round_trip_amended_witness :
    invariant [Atom.single 45, Atom.single 97, Atom.range 100 110, Atom.range 120 121]
    ∧ (∀ a ∈ [Atom.single 45, Atom.single 97, Atom.range 100 110, Atom.range 120 121],
        renderOK a)
    ∧ renderRoundTrip [Atom.single 45, Atom.single 97, Atom.range 100 110, Atom.range 120 121]
      = some [Atom.single 45, Atom.single 97, Atom.range 100 110, Atom.range 120 121] :=
  ⟨by decide, by decide,
    render_round_trip_amended _ (by decide) (by decide)⟩

/-! ## C7: the Unicode category builder and its cache fallback -/

/-- The exception classes caught by `build_unicode_categories` around
the cache `open` and `json.load`: `(IOError, SystemError, ValueError)`. -/
inductive LoadErr where
  | ioError
  | systemError
  | valueError
deriving DecidableEq, Repr

/-- Association-list lookup: the hit case of `dict.__getitem__`. -/
def dictLookup : List (String × List Atom) → String → Option (List Atom)
  | [], _ => none
  | (k, v) :: t, key => if k = key then some v else dictLookup t key

/-- Store under a key: replace in place, or append a new entry (Python
dicts preserve insertion order). -/
def dictSet : List (String × List Atom) → String → List Atom → List (String × List Atom)
  | [], key, val => [(key, val)]
  | (k, v) :: t, key, val =>
      if k = key then (k, val) :: t else (k, v) :: dictSet t key val

/-- A Python mapping of category names to code point lists: a plain
`dict` (what `json.load` returns) or a `defaultdict(list)` (what
`get_unicodedata_categories` returns). -/
structure PyDict where
  entries : List (String × List Atom)
  isDefault : Bool
deriving DecidableEq, Repr

/-- Subscript read `categories[key]`: a plain dict raises `KeyError` on
a missing key, a `defaultdict(list)` inserts an empty list and returns
it. -/
def PyDict.getItem (d : PyDict) (key : String) : Except String (List Atom × PyDict) :=
  match dictLookup d.entries key with
  | some v => .ok (v, d)
  | none =>
      if d.isDefault then .ok ([], ⟨dictSet d.entries key [], d.isDefault⟩)
      else .error ("KeyError: " ++ key)

/-- Subscript write `categories[key] = val`. -/
def PyDict.setItem (d : PyDict) (key : String) (val : List Atom) : PyDict :=
  ⟨dictSet d.entries key val, d.isDefault⟩

/-- A sum `categories[k1] + categories[k2] + ...`, threading the mapping
state (a defaultdict lookup may insert). -/
def getConcat (d : PyDict) : List String → Except String (List Atom × PyDict)
  | [] => .ok ([], d)
  | k :: rest =>
      match d.getItem k with
      | .error e => .error e
      | .ok (v, d2) =>
          match getConcat d2 rest with
          | .error e => .error e
          | .ok (vs, d3) => .ok (v ++ vs, d3)

/-- The seven general-category assignments of
`build_unicode_categories`, in source order. -/
def umbrellaKeys : List (String × List String) :=
  [("C", ["Cc", "Cf", "Cs", "Co", "Cn"]),
   ("L", ["Lu", "Ll", "Lt", "Lm", "Lo"]),
   ("M", ["Mn", "Mc", "Me"]),
   ("N", ["Nd", "Nl", "No"]),
   ("P", ["Pc", "Pd", "Ps", "Pe", "Pi", "Pf", "Po"]),
   ("S", ["Sm", "Sc", "Sk", "So"]),
   ("Z", ["Zs", "Zl", "Zp"])]

/-- Run the general-category assignments in order: each reads its
two-letter parts and stores their concatenation. -/
def addUmbrellas : PyDict → List (String × List String) → Except String PyDict
  | d, [] => .ok d
  | d, (key, parts) :: rest =>
      match getConcat d parts with
      | .error e => .error e
      | .ok (v, d2) => addUmbrellas (d2.setItem key v) rest

/-- The inner `append_code_points` of `get_unicodedata_categories`:
close the run `[start_cp, cp)` of the current category, appending to
`categories[last_category]` (a defaultdict access). -/
def appendCP (categories : List (String × List Atom)) (last_category : String)
    (start_cp cp : Int) : List (String × List Atom) :=
  dictSet categories last_category
    ((dictLookup categories last_category).getD [] ++
      (if cp - start_cp = 1 then [Atom.single start_cp]
       else if cp - start_cp = 2 then [Atom.single start_cp, Atom.single (start_cp + 1)]
       else [Atom.range start_cp (cp - 1)]))

/-- The scan loop of `get_unicodedata_categories` over
`enumerate(map(unicodedata.category, ...))`: `cat` stands for
`unicodedata.category` on code points, `n` is the number of iterations
left and `cur` the next code point; when the enumeration ends the final
run is closed one past the last code point (`cp += 1` in the source). -/
def scanLoop (cat : Int → String) :
    Nat → List (String × List Atom) → String → Int → Int → List (String × List Atom)
  | 0, categories, last_category, start_cp, cur =>
      appendCP categories last_category start_cp cur
  | n + 1, categories, last_category, start_cp, cur =>
      if cat cur = last_category then
        scanLoop cat n categories last_category start_cp (cur + 1)
      else
        scanLoop cat n (appendCP categories last_category start_cp cur) (cat cur) cur (cur + 1)

/-- `get_unicodedata_categories()`, with `cat` abstracting the
`unicodedata.category` library call: scan code points `0..maxunicode`
grouping runs of equal category, starting from `last_category = 'Cc'`
and `start_cp = cp = 0`. -/
def get_unicodedata_categories (cat : Int → String) : List (String × List Atom) :=
  scanLoop cat (maxunicode.toNat + 1) [] "Cc" 0 0

/-- The final comprehension
`{k: UnicodeSubset(v) for k, v in categories.items()}`: build a subset
from each code point list, propagating any error `UnicodeSubset` raises. -/
def toSubsets : List (String × List Atom) → Except String (List (String × List Atom))
  | [] => .ok []
  | (k, v) :: t =>
      match UnicodeSubset.ofList v with
      | .error e => .error e
      | .ok s =>
          match toSubsets t with
          | .error e => .error e
          | .ok rest => .ok ((k, s) :: rest)

/-- `build_unicode_categories` on a wide build (`maxunicode` equals
`UCS4_MAXUNICODE`, so the cache branch is taken): `load` is the outcome
of `open` plus `json.load` on the cache file — a decoded mapping, or
one of the three caught exception classes — and `cat` stands for
`unicodedata.category`. A caught load failure falls back to the scan
(a defaultdict); a decoded cache is used as a plain dict. The general
categories are then derived and every list becomes a `UnicodeSubset`. -/
def build_unicode_categories (cat : Int → String)
    (load : Except LoadErr (List (String × List Atom))) :
    Except String (List (String × List Atom)) :=
  let categories : PyDict :=
    match load with
    | .ok tbl => ⟨tbl, false⟩
    | .error _ => ⟨get_unicodedata_categories cat, true⟩
  match addUmbrellas categories umbrellaKeys with
  | .error e => .error e
  | .ok d => toSubsets d.entries

/-- All code point lists of a mapping hold valid atoms. -/
def entriesOK (entries : List (String × List Atom)) : Prop :=
  ∀ p ∈ entries, ∀ a ∈ p.2, atomOK a

theorem dictLookup_ok : ∀ (entries : List (String × List Atom)) (key : String)
    (v : List Atom), entriesOK entries → dictLookup entries key = some v →
    ∀ a ∈ v, atomOK a := by
  intro entries
  induction entries with
  | nil =>
      intro key v _ h
      rw [show dictLookup [] key = none from rfl] at h
      cases h
  | cons p t ih =>
      obtain ⟨k, w⟩ := p
      intro key v hok h
      rw [show dictLookup ((k, w) :: t) key =
        (if k = key then some w else dictLookup t key) from rfl] at h
      split_ifs at h with hk
      · have hwv : w = v := by simpa using h
        subst hwv
        exact hok (k, w) (List.mem_cons_self _ _)
      · exact ih key v (fun q hq => hok q (List.mem_cons_of_mem _ hq)) h

theorem dictLookup_getD_ok (entries : List (String × List Atom)) (key : String)
    (hok : entriesOK entries) :
    ∀ a ∈ (dictLookup entries key).getD [], atomOK a := by
  cases h : dictLookup entries key with
  | none =>
      intro a ha
      simp at ha
  | some v =>
      exact dictLookup_ok entries key v hok h

theorem dictSet_ok : ∀ (entries : List (String × List Atom)) (key : String)
    (val : List Atom), entriesOK entries → (∀ a ∈ val, atomOK a) →
    entriesOK (dictSet entries key val) := by
  intro entries
  induction entries with
  | nil =>
      intro key val _ hval p hp
      have hpe : p = (key, val) := by simpa [dictSet] using hp
      subst hpe
      exact hval
  | cons q t ih =>
      obtain ⟨k, w⟩ := q
      intro key val hok hval p hp
      rw [show dictSet ((k, w) :: t) key val =
        (if k = key then (k, val) :: t else (k, w) :: dictSet t key val) from rfl] at hp
      split_ifs at hp with hk
      · rcases List.mem_cons.mp hp with rfl | hpt
        · exact hval
        · exact hok p (List.mem_cons_of_mem _ hpt)
      · rcases List.mem_cons.mp hp with rfl | hpt
        · exact hok (k, w) (List.mem_cons_self _ _)
        · exact ih key val (fun q2 hq2 => hok q2 (List.mem_cons_of_mem _ hq2)) hval p hpt

theorem atomOK_single {c : Int} (h1 : 0 ≤ c) (h2 : c ≤ maxunicode) :
    atomOK (Atom.single c) :=
  ⟨h1, le_refl c, h2⟩

theorem atomOK_range {lo hi : Int} (h1 : 0 ≤ lo) (h2 : lo ≤ hi) (h3 : hi ≤ maxunicode) :
    atomOK (Atom.range lo hi) :=
  ⟨h1, h2, h3⟩

/-- The run closer only appends valid atoms when the run is nonempty
and ends within the Unicode space. -/
theorem appendCP_ok {cats : List (String × List Atom)} {last : String} {start cp : Int}
    (hok : entriesOK cats) (h0 : 0 ≤ start) (hlt : start < cp)
    (hle : cp ≤ maxunicode + 1) :
    entriesOK (appendCP cats last start cp) := by
  unfold appendCP
  refine dictSet_ok cats last _ hok ?_
  intro a ha
  rcases List.mem_append.mp ha with h | h
  · exact dictLookup_getD_ok cats last hok a h
  · split_ifs at h with h1 h2
    · have hae : a = Atom.single start := by simpa using h
      subst hae
      exact atomOK_single h0 (by omega)
    · rcases (by simpa using h : a = Atom.single start ∨ a = Atom.single (start + 1))
        with rfl | rfl
      · exact atomOK_single h0 (by omega)
      · exact atomOK_single (by omega) (by omega)
    · have hae : a = Atom.range start (cp - 1) := by simpa using h
      subst hae
      exact atomOK_range h0 (by omega) (by omega)

/-- Along the scan, every closed run is a valid atom list: the cursor
only moves right and stays within the Unicode space. -/
theorem scanLoop_ok : ∀ (n : Nat) (cat : Int → String)
    (cats : List (String × List Atom)) (last : String) (start cur : Int),
    entriesOK cats → 0 ≤ start →
    (start < cur ∨ (start = cur ∧ cat cur = last ∧ 1 ≤ n)) →
    cur + (n : Int) = maxunicode + 1 →
    entriesOK (scanLoop cat n cats last start cur) := by
  intro n
  induction n with
  | zero =>
      intro cat cats last start cur hok h0 hlt hsum
      have hstart : start < cur := by
        rcases hlt with h | ⟨_, _, h⟩
        · exact h
        · omega
      have hcur : cur = maxunicode + 1 := by push_cast at hsum; omega
      show entriesOK (appendCP cats last start cur)
      exact appendCP_ok hok h0 hstart (by omega)
  | succ n ih =>
      intro cat cats last start cur hok h0 hlt hsum
      have hsum2 : (cur + 1) + (n : Int) = maxunicode + 1 := by push_cast at hsum ⊢; omega
      show entriesOK (if cat cur = last then scanLoop cat n cats last start (cur + 1)
        else scanLoop cat n (appendCP cats last start cur) (cat cur) cur (cur + 1))
      by_cases hc : cat cur = last
      · rw [if_pos hc]
        refine ih cat cats last start (cur + 1) hok h0 (Or.inl ?_) hsum2
        rcases hlt with h | ⟨h, _, _⟩ <;> omega
      · rw [if_neg hc]
        have hstart : start < cur := by
          rcases hlt with h | ⟨he, hcl, _⟩
          · exact h
          · exact absurd hcl hc
        have hcmax : cur ≤ maxunicode + 1 := by push_cast at hsum; omega
        exact ih cat _ (cat cur) cur (cur + 1)
          (appendCP_ok hok h0 hstart hcmax) (by omega) (Or.inl (by omega)) hsum2

/-- A defaultdict read never fails and preserves validity. -/
theorem getItem_default_ok (d : PyDict) (key : String) (hd : d.isDefault = true)
    (hok : entriesOK d.entries) :
    ∃ v d2, d.getItem key = .ok (v, d2) ∧ (∀ a ∈ v, atomOK a) ∧
      d2.isDefault = true ∧ entriesOK d2.entries := by
  cases h : dictLookup d.entries key with
  | some v =>
      refine ⟨v, d, ?_, dictLookup_ok _ _ _ hok h, hd, hok⟩
      unfold PyDict.getItem
      rw [h]
  | none =>
      refine ⟨[], ⟨dictSet d.entries key [], d.isDefault⟩, ?_, ?_, hd, ?_⟩
      · unfold PyDict.getItem
        rw [h, if_pos hd]
      · intro a ha
        simp at ha
      · show entriesOK (dictSet d.entries key [])
        refine dictSet_ok _ _ _ hok ?_
        intro a ha
        simp at ha

/-- A defaultdict concatenation read never fails and returns valid
atoms, preserving validity of the mapping. -/
theorem getConcat_default_ok : ∀ (parts : List String) (d : PyDict),
    d.isDefault = true → entriesOK d.entries →
    ∃ v d2, getConcat d parts = .ok (v, d2) ∧ (∀ a ∈ v, atomOK a) ∧
      d2.isDefault = true ∧ entriesOK d2.entries := by
  intro parts
  induction parts with
  | nil =>
      intro d hd hok
      exact ⟨[], d, rfl, fun a ha => absurd ha (List.not_mem_nil a), hd, hok⟩
  | cons k rest ih =>
      intro d hd hok
      obtain ⟨v, d2, heq, hv, hd2, hok2⟩ := getItem_default_ok d k hd hok
      obtain ⟨vs, d3, heq2, hvs, hd3, hok3⟩ := ih d2 hd2 hok2
      refine ⟨v ++ vs, d3, ?_, ?_, hd3, hok3⟩
      · simp only [getConcat, heq, heq2]
      · intro a ha
        rcases List.mem_append.mp ha with h | h
        · exact hv a h
        · exact hvs a h

/-- The umbrella derivation on a defaultdict never fails and preserves
validity. -/
theorem addUmbrellas_default_ok : ∀ (ks : List (String × List String)) (d : PyDict),
    d.isDefault = true → entriesOK d.entries →
    ∃ d2, addUmbrellas d ks = .ok d2 ∧ entriesOK d2.entries := by
  intro ks
  induction ks with
  | nil =>
      intro d _ hok
      exact ⟨d, rfl, hok⟩
  | cons p rest ih =>
      obtain ⟨key, parts⟩ := p
      intro d hd hok
      obtain ⟨v, d2, heq, hv, hd2, hok2⟩ := getConcat_default_ok parts d hd hok
      obtain ⟨d3, heq3, hok3⟩ := ih (d2.setItem key v)
        (by show d2.isDefault = true; exact hd2)
        (by show entriesOK (dictSet d2.entries key v); exact dictSet_ok _ _ _ hok2 hv)
      exact ⟨d3, by simp only [addUmbrellas, heq, heq3], hok3⟩

/-- The reverse merge loop only yields valid atoms when its inputs and
pending run are valid. -/
theorem revGo_atomOK : ∀ (L : List Atom) (st : Option (Int × Int)),
    (∀ a ∈ L, atomOK a) →
    (∀ ps pe, st = some (ps, pe) → 0 ≤ ps ∧ ps ≤ maxunicode ∧ 0 ≤ pe ∧ pe ≤ maxunicode) →
    ∀ b ∈ revGo st L, atomOK b := by
  intro L
  induction L with
  | nil =>
      intro st hL hst b hb
      rcases st with _ | ⟨ps, pe⟩
      · rw [show revGo none ([] : List Atom) = [] from rfl] at hb
        cases hb
      · rw [show revGo (some (ps, pe)) ([] : List Atom) = [flushAtom ps pe] from rfl] at hb
        obtain ⟨h1, h2, h3, h4⟩ := hst ps pe rfl
        have hbe : b = flushAtom ps pe := by simpa using hb
        subst hbe
        unfold flushAtom
        split_ifs with hgt
        · exact atomOK_range h1 (le_of_lt hgt) h4
        · exact atomOK_single h1 h2
  | cons a t ih =>
      intro st hL hst b hb
      obtain ⟨x1, x2, x3⟩ := hL a (List.mem_cons_self _ _)
      have hL2 : ∀ x ∈ t, atomOK x := fun x hx => hL x (List.mem_cons_of_mem _ hx)
      rcases st with _ | ⟨ps, pe⟩
      · rw [show revGo none (a :: t) = revGo (some (a.lo, a.hi)) t from rfl] at hb
        refine ih _ hL2 ?_ b hb
        intro ps pe heq
        obtain ⟨hps, hpe⟩ : a.lo = ps ∧ a.hi = pe := by simpa using heq
        exact ⟨by omega, by omega, by omega, by omega⟩
      · rw [show revGo (some (ps, pe)) (a :: t) =
          (if ps - 1 ≤ a.hi then revGo (some (min ps a.lo, pe)) t
           else flushAtom ps pe :: revGo (some (a.lo, a.hi)) t) from rfl] at hb
        obtain ⟨h1, h2, h3, h4⟩ := hst ps pe rfl
        split_ifs at hb with hmerge
        · refine ih _ hL2 ?_ b hb
          intro ps2 pe2 heq
          obtain ⟨hps, hpe⟩ : min ps a.lo = ps2 ∧ pe = pe2 := by simpa using heq
          exact ⟨by omega, by omega, by omega, by omega⟩
        · rcases List.mem_cons.mp hb with rfl | hb2
          · unfold flushAtom
            split_ifs with hgt
            · exact atomOK_range h1 (le_of_lt hgt) h4
            · exact atomOK_single h1 h2
          · refine ih _ hL2 ?_ b hb2
            intro ps2 pe2 heq
            obtain ⟨hps, hpe⟩ : a.lo = ps2 ∧ a.hi = pe2 := by simpa using heq
            exact ⟨by omega, by omega, by omega, by omega⟩

/-- Adding a sequence of valid atoms never raises. -/
theorem foldlM_add_allOK : ∀ (D acc : List Atom), (∀ a ∈ D, atomOK a) →
    ∃ r, D.foldlM UnicodeSubset.add acc = .ok r := by
  intro D
  induction D with
  | nil =>
      intro acc _
      exact ⟨acc, rfl⟩
  | cons a t ih =>
      intro acc hok
      obtain ⟨r, hr⟩ := ih (UnicodeSubset.addAux a acc)
        (fun x hx => hok x (List.mem_cons_of_mem _ hx))
      refine ⟨r, ?_⟩
      rw [List.foldlM_cons, add_eq_ok acc (hok a (List.mem_cons_self _ _))]
      exact hr

/-- Building a subset from any list of valid atoms never raises. -/
theorem ofList_allOK (v : List Atom) (hv : ∀ a ∈ v, atomOK a) :
    ∃ r, UnicodeSubset.ofList v = .ok r := by
  have hiter : ∀ b ∈ iter_code_points v true, atomOK b := by
    intro b hb
    rw [show iter_code_points v true = revGo none (sortDesc v) from rfl] at hb
    refine revGo_atomOK (sortDesc v) none
      (fun x hx => hv x ((sortDesc_perm v).mem_iff.mp hx)) ?_ b hb
    intro ps pe heq
    cases heq
  exact foldlM_add_allOK _ [] hiter

/-- The final per-category subset construction never raises on a valid
mapping. -/
theorem toSubsets_ok : ∀ (entries : List (String × List Atom)), entriesOK entries →
    ∃ r, toSubsets entries = .ok r := by
  intro entries
  induction entries with
  | nil =>
      intro _
      exact ⟨[], rfl⟩
  | cons p t ih =>
      obtain ⟨k, v⟩ := p
      intro hok
      obtain ⟨s, hs⟩ := ofList_allOK v (hok (k, v) (List.mem_cons_self _ _))
      obtain ⟨rest, hrest⟩ := ih (fun q hq => hok q (List.mem_cons_of_mem _ hq))
      exact ⟨(k, s) :: rest, by simp only [toSubsets, hs, hrest]⟩

/-- **C7 (counterexample).** A cache file that opens and decodes
successfully but has a structurally invalid shape — here an empty JSON
object, missing every required two-letter category — is not treated as
a cache miss: the general-category derivation `categories['C'] =
categories['Cc'] + ...` raises `KeyError` on the plain decoded dict
instead of falling back to the scan, so the failure propagates to the
caller. -/
theorem build_categories_counterexample :
    build_unicode_categories (fun _ => "Cc") (.ok []) = .error "KeyError: Cc" := by
  decide

/-- **C7 (amended).** The function only catches `IOError`,
`SystemError` and `ValueError` from the cache `open`/`json.load`: for
those three failures it falls back to the full `unicodedata` scan and
returns the complete category dictionary without raising (for any
category assignment on code points that starts, like the real one, with
`Cc` at code point 0).  A successfully decoded cache of invalid shape
is not covered: its failures escape (see the counterexample). -/
theorem build_categories_fallback (e : LoadErr) (cat : Int → String)
    (hcat0 : cat 0 = "Cc") :
    ∃ tbl, build_unicode_categories cat (.error e) = .ok tbl := by
  have hscan : entriesOK (get_unicodedata_categories cat) := by
    refine scanLoop_ok (maxunicode.toNat + 1) cat [] "Cc" 0 0 ?_ le_rfl ?_ ?_
    · intro p hp
      cases hp
    · exact Or.inr ⟨rfl, hcat0, by omega⟩
    · decide
  obtain ⟨d2, heq, hok2⟩ := addUmbrellas_default_ok umbrellaKeys
    ⟨get_unicodedata_categories cat, true⟩ rfl hscan
  obtain ⟨r, hr⟩ := toSubsets_ok d2.entries hok2
  refine ⟨r, ?_⟩
  show (match addUmbrellas ⟨get_unicodedata_categories cat, true⟩ umbrellaKeys with
    | .error e => (Except.error e : Except String (List (String × List Atom)))
    | .ok d => toSubsets d.entries) = .ok r
  rw [heq]
  exact hr

/-- Witness for C7 (amended): an `IOError` on the cache with the
constant category assignment. -/
theorem build_categories_fallback_witness :
    (fun _ => "Cc" : Int → String) 0 = "Cc" ∧
    ∃ tbl, build_unicode_categories (fun _ => "Cc") (.error .ioError) = .ok tbl :=
  ⟨rfl, build_categories_fallback .ioError (fun _ => "Cc") rfl⟩
